import Mathlib

/-!
# Verification of the read-only bash guard

A shallow embedding of
`.devcontainer/plugins/devs-marketplace/plugins/code-directive/scripts/guard-readonly-bash.py`
over `List Char`, together with proofs about the two mode checkers
`check_general_readonly` and `check_git_readonly`.

Conventions of the embedding:
* Python strings are modelled as `List Char`; the ASCII whitespace class
  (space, tab, newline, carriage return, vertical tab, form feed) stands in
  for Python's `\s` / `str.split()` / `str.strip()` whitespace classes.
* The regular-expression scans of the source are implemented as explicit
  left-to-right scanners that realise the same leftmost, non-overlapping
  match semantics (including the look-behind/look-ahead conditions on `&`
  and `|` and the greedy/backtracking behaviour of the redirect patterns).
* Recursions that Python performs on derived substrings are implemented
  with an explicit fuel argument (`cleanDevNullF`, `checkGeneralF`,
  `checkGitF`); the entry points supply fuel that provably suffices, so the
  definitions stay kernel-computable.
-/

/-- ASCII part of Python's whitespace class. -/
def isSpace (c : Char) : Bool :=
  c = ' ' || c = '\t' || c = '\n' || c = '\r' || c = '\x0b' || c = '\x0c'

/-- The back-tick character (spelled via its code point). -/
def backtickChar : Char := Char.ofNat 96

/-- Character membership in a `List Char`, as a boolean scanner. -/
def containsChar (c : Char) : List Char → Bool
  | [] => false
  | x :: rest => if x = c then true else containsChar c rest

/-- Membership of a word in a word list (used for the rule tables). -/
def memW (w : List Char) : List (List Char) → Bool
  | [] => false
  | x :: rest => if w = x then true else memW w rest

/-- `WRITE_COMMANDS`: single-word commands blocked in general-readonly mode. -/
def WRITE_COMMANDS : List (List Char) :=
  ["rm", "mv", "cp", "mkdir", "rmdir", "touch", "chmod", "chown", "chgrp",
   "ln", "install", "mkfifo", "mknod", "truncate", "shred", "unlink",
   "nano", "vi", "vim", "nvim",
   "kill", "pkill", "killall",
   "dd", "sudo", "su", "tee",
   "eval", "exec", "source",
   "xargs"].map String.toList

/-- `WRITE_PREFIXES`: two-word command text blocked in general-readonly mode
(split into words at match time, like the source). -/
def writePrefixList : List (List Char) :=
  ["docker stop", "docker rm", "docker kill", "docker rmi", "docker exec",
   "docker-compose down", "docker compose down",
   "git push", "git reset", "git clean", "git merge", "git rebase",
   "git commit", "git cherry-pick", "git revert", "git pull",
   "git checkout --", "git restore", "git stash drop", "git stash clear",
   "git stash pop", "git config", "git remote add", "git remote remove",
   "git remote rename", "git branch -d", "git branch -D",
   "git branch --delete", "git branch -m", "git branch -M",
   "git branch --move", "git tag -d", "git tag --delete",
   "pip install", "pip uninstall", "pip3 install", "pip3 uninstall",
   "uv pip", "npm install", "npm uninstall", "npm ci", "npm update",
   "npm link", "yarn add", "yarn remove", "yarn install", "pnpm add",
   "pnpm remove", "pnpm install", "apt install", "apt-get install",
   "apt remove", "apt-get remove", "cargo install",
   "sed -i", "sed --in-place"].map String.toList

/-- `INTERPRETERS`: interpreters that can execute arbitrary code. -/
def INTERPRETERS : List (List Char) :=
  ["bash", "sh", "zsh", "dash", "ksh", "fish", "python", "python3",
   "node", "perl", "ruby"].map String.toList

/-- `INLINE_FLAGS`: the inline-execution flag of each interpreter that has one. -/
def inlineFlag (base : List Char) : Option (List Char) :=
  if base = "python".toList then some "-c".toList
  else if base = "python3".toList then some "-c".toList
  else if base = "node".toList then some "-e".toList
  else if base = "perl".toList then some "-e".toList
  else if base = "ruby".toList then some "-e".toList
  else if base = "bash".toList then some "-c".toList
  else if base = "sh".toList then some "-c".toList
  else if base = "zsh".toList then some "-c".toList
  else none

/-- `GIT_SAFE_SUBCOMMANDS`: git subcommands considered read-only. -/
def GIT_SAFE_SUBCOMMANDS : List (List Char) :=
  ["log", "blame", "show", "diff", "bisect", "reflog", "shortlog",
   "rev-parse", "rev-list", "branch", "tag", "remote", "status",
   "ls-files", "ls-tree", "cat-file", "describe", "name-rev", "grep",
   "for-each-ref", "count-objects", "fsck", "verify-commit", "verify-tag",
   "fetch", "stash", "notes", "worktree", "config", "help",
   "version"].map String.toList

/-- `GIT_RESTRICTED_ARGS`: the restricted-token set per restricted subcommand
(`none` for subcommands without a restricted table). -/
def gitRestrictedArgs (sub : List Char) : Option (List (List Char)) :=
  if sub = "branch".toList then
    some (["-d", "-D", "-m", "-M", "--delete", "--move", "--copy", "-c",
           "-C"].map String.toList)
  else if sub = "tag".toList then
    some (["-d", "--delete", "-f", "--force"].map String.toList)
  else if sub = "remote".toList then
    some (["add", "remove", "rename", "set-url", "set-head",
           "prune"].map String.toList)
  else if sub = "stash".toList then
    some (["drop", "clear", "pop", "apply", "push", "save", "create",
           "store"].map String.toList)
  else if sub = "worktree".toList then
    some (["add", "remove", "prune", "repair", "move", "lock",
           "unlock"].map String.toList)
  else if sub = "notes".toList then
    some (["add", "append", "copy", "edit", "merge", "prune",
           "remove"].map String.toList)
  else if sub = "config".toList then some []
  else none

/-- `READONLY_UTILITIES`: non-git commands allowed in git-readonly mode. -/
def READONLY_UTILITIES : List (List Char) :=
  ["cat", "head", "tail", "less", "more", "bat",
   "wc", "sort", "uniq", "cut", "tr", "paste", "column", "fold", "sed",
   "awk", "gawk",
   "grep", "egrep", "fgrep", "rg", "ag", "ack",
   "find", "ls", "tree", "file", "stat", "du", "df",
   "echo", "printf",
   "diff", "comm", "cmp",
   "jq", "yq",
   "basename", "dirname", "realpath", "readlink",
   "date", "cal", "env", "printenv", "id", "whoami", "uname", "hostname",
   "pwd", "uptime", "nproc", "arch",
   "true", "false", "test", "[",
   "which", "type", "command",
   "seq", "expr", "bc",
   "tput", "clear",
   "md5sum", "sha256sum", "sha1sum",
   "xxd", "od", "hexdump", "strings",
   "curl", "ssh",
   "ast-grep", "sg"].map String.toList

/-! ## Command parsing helpers -/

/-- `command.replace("\\\n", " ")`: collapse each line continuation to a space. -/
def replaceBsNl : List Char → List Char
  | [] => []
  | [c] => [c]
  | c :: c2 :: rest =>
    if c = '\\' && c2 = '\n' then ' ' :: replaceBsNl rest
    else c :: replaceBsNl (c2 :: rest)

/-- Scanner realising `re.split(r"\s*(?:;|&&|\|\||(?<![&])&(?![&]))\s*", _)`
(the surrounding `\s*` of each separator is immaterial because the caller
strips every piece).  `prev` is the character just before the scan position
(the regex look-behind inspects the original string), `cur` the current piece
in reverse. -/
def segSplit : List Char → Option Char → List Char → List (List Char)
  | [], _, cur => [cur.reverse]
  | [c], prev, cur =>
    if c = ';' then [cur.reverse, []]
    else if c = '&' then
      if prev = some '&' then [(c :: cur).reverse] else [cur.reverse, []]
    else [(c :: cur).reverse]
  | c :: c2 :: rest, prev, cur =>
    if c = ';' then cur.reverse :: segSplit (c2 :: rest) (some c) []
    else if c = '&' then
      if c2 = '&' then cur.reverse :: segSplit rest (some '&') []
      else if prev = some '&' then segSplit (c2 :: rest) (some '&') (c :: cur)
      else cur.reverse :: segSplit (c2 :: rest) (some '&') []
    else if c = '|' then
      if c2 = '|' then cur.reverse :: segSplit rest (some '|') []
      else segSplit (c2 :: rest) (some '|') (c :: cur)
    else segSplit (c2 :: rest) (some c) (c :: cur)

/-- Python `str.strip()` (ASCII whitespace). -/
def pyStrip (l : List Char) : List Char :=
  ((l.dropWhile isSpace).reverse.dropWhile isSpace).reverse

/-- `_split_segments`: split on `;`, `&&`, `||` and lone `&`, strip pieces,
drop empties. -/
def splitSegments (command : List Char) : List (List Char) :=
  ((segSplit (replaceBsNl command) none []).map pyStrip).filter
    (fun s => !s.isEmpty)

/-- Scanner realising `re.split(r"(?<!\|)\|(?!\|)", _)`: split on a `|`
neither preceded nor followed by `|`. -/
def pipeSplit : List Char → Option Char → List Char → List (List Char)
  | [], _, cur => [cur.reverse]
  | c :: rest, prev, cur =>
    if c = '|' then
      match rest with
      | c2 :: _ =>
        if c2 = '|' then pipeSplit rest (some c) (c :: cur)
        else if prev = some '|' then pipeSplit rest (some c) (c :: cur)
        else cur.reverse :: pipeSplit rest (some c) []
      | [] => if prev = some '|' then [(c :: cur).reverse] else [cur.reverse, []]
    else pipeSplit rest (some c) (c :: cur)

/-- `_split_pipes`: split a segment on single `|`, strip pieces, drop empties. -/
def splitPipes (segment : List Char) : List (List Char) :=
  ((pipeSplit segment none []).map pyStrip).filter (fun s => !s.isEmpty)

/-- Python `str.split()` with no argument (whitespace runs, no empty words). -/
def splitWsAux : List Char → List Char → List (List Char)
  | [], cur => if cur.isEmpty then [] else [cur.reverse]
  | c :: rest, cur =>
    if isSpace c then
      if cur.isEmpty then splitWsAux rest [] else cur.reverse :: splitWsAux rest []
    else splitWsAux rest (c :: cur)

def splitWs (l : List Char) : List (List Char) := splitWsAux l []

/-- `word.startswith("-")`. -/
def startsWithDash : List Char → Bool
  | [] => false
  | c :: _ => c = '-'

/-- A leading `NAME=value` assignment word: contains `=`, does not start
with `-`. -/
def isAssignWord (w : List Char) : Bool :=
  containsChar '=' w && !startsWithDash w

/-- Drop the leading run of assignment words (the source keeps every word
once the first non-assignment word has been accepted). -/
def dropAssignWords : List (List Char) → List (List Char)
  | [] => []
  | w :: rest => if isAssignWord w then dropAssignWords rest else w :: rest

/-- `_get_cmd_words`: whitespace-split a stage and skip leading
`VAR=value` assignments. -/
def getCmdWords (stage : List Char) : List (List Char) :=
  dropAssignWords (splitWs stage)

/-- `cmd.lstrip("\\")`. -/
def stripBackslashes : List Char → List Char
  | [] => []
  | c :: rest => if c = '\\' then stripBackslashes rest else c :: rest

/-- `cmd.rsplit("/", 1)[-1]`: the part after the last `/`. -/
def afterLastSlash (l : List Char) : List Char :=
  (l.reverse.takeWhile (fun c => c ≠ '/')).reverse

/-- `_base_name`: strip leading backslashes and any path prefix. -/
def baseName (cmd : List Char) : List Char :=
  let s := stripBackslashes cmd
  if containsChar '/' s then afterLastSlash s else s

/-- Skip flag tokens following `command`/`builtin`. -/
def dropDashFlags : List (List Char) → List (List Char)
  | [] => []
  | w :: rest => if startsWithDash w then dropDashFlags rest else w :: rest

/-- `_resolve_prefix`: resolve through `command` and `builtin` prefixes. -/
def resolvePrefix (words : List (List Char)) :
    List Char × List (List Char) :=
  match words with
  | [] => ([], [])
  | w :: tail =>
    let base := baseName w
    if base = "command".toList || base = "builtin".toList then
      match dropDashFlags tail with
      | r :: rest' => (baseName r, r :: rest')
      | [] => ([], [])
    else (base, w :: tail)

/-! ## Redirect detection (`_has_redirect`) -/

/-- The literal `/dev/null`. -/
def devnullStr : List Char := "/dev/null".toList

/-- Tail of the `/dev/null`-removal pattern after the `>`s:
`\s*/dev/null`, returning the number of consumed characters. -/
def devTail (l : List Char) : Option Nat :=
  if devnullStr.isPrefixOf (l.dropWhile isSpace) then
    some ((l.takeWhile isSpace).length + 9)
  else none

/-- `>{1,2}\s*/dev/null` (greedy on the `>`s, with the regex back-off). -/
def gtDev : List Char → Option Nat
  | [] => none
  | c :: t =>
    if c = '>' then
      if t.head? = some '>' then
        ((devTail t.tail).map (· + 2)).or ((devTail t).map (· + 1))
      else (devTail t).map (· + 1)
    else none

/-- Match length of `[12]?>{1,2}\s*/dev/null` at the head of `l`. -/
def devNullLen : List Char → Option Nat
  | [] => none
  | c :: rest =>
    if c = '1' || c = '2' then
      ((gtDev rest).map (· + 1)).or (gtDev (c :: rest))
    else gtDev (c :: rest)

/-- `re.sub(r"[12]?>{1,2}\s*/dev/null", "", _)` with fuel (the entry point
supplies `l.length`, which suffices since every removal is non-empty).
Exhausted fuel returns the input unchanged. -/
def cleanDevNullF : Nat → List Char → List Char
  | 0, l => l
  | _ + 1, [] => []
  | f + 1, c :: rest =>
    match devNullLen (c :: rest) with
    | some n => cleanDevNullF f ((c :: rest).drop n)
    | none => c :: cleanDevNullF f rest

def cleanDevNull (l : List Char) : List Char := cleanDevNullF l.length l

/-- `\s*[^\s&|;]` after the `>`s of the search pattern. -/
def gtTail (l : List Char) : Bool :=
  match l.dropWhile isSpace with
  | [] => false
  | c :: _ => !(isSpace c || c = '&' || c = '|' || c = ';')

/-- `>{1,2}\s*[^\s&|;]` (both greedy choices of the `>` run can succeed). -/
def gtRun : List Char → Bool
  | [] => false
  | c :: t =>
    if c = '>' then
      if t.head? = some '>' then (gtTail t.tail || gtTail t)
      else gtTail t
    else false

/-- `(?:[12])?>{1,2}\s*[^\s&|;]` at the head of `l`. -/
def redirCoreB : List Char → Bool
  | [] => false
  | c :: rest =>
    if c = '1' || c = '2' then (gtRun rest || gtRun (c :: rest))
    else gtRun (c :: rest)

/-- Search for the core pattern anchored after a whitespace or `)` character. -/
def searchRedirAux : List Char → Bool
  | [] => false
  | c :: rest => ((isSpace c || c = ')') && redirCoreB rest) || searchRedirAux rest

/-- `_has_redirect`: strip `/dev/null` redirections, then search for
`(?:^|[\s)])(?:[12])?>{1,2}\s*[^\s&|;]`. -/
def hasRedirect (command : List Char) : Bool :=
  let cleaned := cleanDevNull command
  redirCoreB cleaned || searchRedirAux cleaned

/-! ## Command substitution -/

/-- `"$(" in command`. -/
def hasDollarParen : List Char → Bool
  | [] => false
  | [_] => false
  | c :: c2 :: rest =>
    if c = '$' && c2 = '(' then true else hasDollarParen (c2 :: rest)

/-- `_has_command_substitution`. -/
def hasCommandSubstitution (command : List Char) : Bool :=
  hasDollarParen command || containsChar backtickChar command

/-- Scanner for `re.finditer(r"\$\(([^)]+)\)", _)`: `st = some acc` while
inside a `$(` group (`acc` reversed).  An empty group is not a match; the
scan then continues after the consumed `$()` exactly as the regex engine
resumes after a failed position. -/
def edGo : List Char → Option (List Char) → List (List Char)
  | [], _ => []
  | c :: rest, some acc =>
    if c = ')' then
      if acc.isEmpty then edGo rest none else acc.reverse :: edGo rest none
    else edGo rest (some (c :: acc))
  | [_], none => []
  | c :: c2 :: rest2, none =>
    if c = '$' && c2 = '(' then edGo rest2 (some [])
    else edGo (c2 :: rest2) none

/-- Scanner for ``re.finditer(r"`([^`]+)`", _)``.  A back-tick closing an
empty group is re-used as an opener, matching how the regex engine resumes
scanning at the next position after a failed attempt. -/
def ebGo : List Char → Option (List Char) → List (List Char)
  | [], _ => []
  | c :: rest, some acc =>
    if c = backtickChar then
      if acc.isEmpty then ebGo rest (some [])
      else acc.reverse :: ebGo rest none
    else ebGo rest (some (c :: acc))
  | c :: rest, none =>
    if c = backtickChar then ebGo rest (some []) else ebGo rest none

/-- `_extract_substitution_commands`: all `$(...)` groups, then all
back-tick groups. -/
def extractSubstitutionCommands (command : List Char) : List (List Char) :=
  edGo command none ++ ebGo command none

/-! ## sed -i and prefix matching -/

/-- One word of a sed invocation that triggers the in-place check. -/
def sedInplaceWord (w : List Char) : Bool :=
  (w = "-i".toList) || (w = "--in-place".toList) ||
  ("-i".toList.isPrefixOf w) ||
  (startsWithDash w && !("--".toList.isPrefixOf w) && containsChar 'i' w)

/-- `_has_sed_inplace` over the words after the command itself. -/
def hasSedInplace (words : List (List Char)) : Bool :=
  words.tail.any sedInplaceWord

/-- `pwords` is a word-for-word positional prefix of `cmdWords`
(equivalent to the source's length guard plus slice comparison). -/
def wordsMatch : List (List Char) → List (List Char) → Bool
  | _, [] => true
  | [], _ :: _ => false
  | c :: cs, p :: ps => if c = p then wordsMatch cs ps else false

/-- `_matches_prefix` (the blocked-prefix text is split at match time). -/
def matchesPrefix (cmdWords : List (List Char)) (pfx : List Char) : Bool :=
  wordsMatch cmdWords (splitWs pfx)

/-- First blocked prefix matching the command words, if any. -/
def firstMatchingPfx (cmdWords : List (List Char)) :
    List (List Char) → Option (List Char)
  | [] => none
  | wp :: rest =>
    if matchesPrefix cmdWords wp then some wp else firstMatchingPfx cmdWords rest

/-! ## General-readonly checker -/

def genRedirMsg : List Char :=
  "Blocked: output redirection (> or >>) is not allowed in read-only mode".toList

def genSubstMsg : List Char :=
  "Blocked: command substitution contains a write operation".toList

def blockedWordMsg (base : List Char) : List Char :=
  "Blocked: '".toList ++ base ++ "' is not allowed in read-only mode".toList

def blockedPipeMsg (base : List Char) : List Char :=
  "Blocked: piping into '".toList ++ base ++
    "' is not allowed in read-only mode".toList

def blockedInlineMsg (base flag : List Char) : List Char :=
  "Blocked: '".toList ++ base ++ " ".toList ++ flag ++
    "' inline execution is not allowed in read-only mode".toList

/-- The per-stage rules of `check_general_readonly` (stage `i` within its
segment). -/
def genStageCheck (i : Nat) (stage : List Char) : Option (List Char) :=
  match getCmdWords stage with
  | [] => none
  | w :: tail =>
    match resolvePrefix (w :: tail) with
    | (base, words) =>
      if base.isEmpty then none
      else if memW base WRITE_COMMANDS then some (blockedWordMsg base)
      else
        match firstMatchingPfx (base :: words.tail) writePrefixList with
        | some wp => some (blockedWordMsg wp)
        | none =>
          if decide (0 < i) && memW base INTERPRETERS then
            some (blockedPipeMsg base)
          else
            match inlineFlag base with
            | some flag =>
              if memW flag words.tail then some (blockedInlineMsg base flag)
              else none
            | none => none

/-- The enumerated stage loop of one segment. -/
def genStagesGo (i : Nat) : List (List Char) → Option (List Char)
  | [] => none
  | st :: rest =>
    match genStageCheck i st with
    | some m => some m
    | none => genStagesGo (i + 1) rest

def genSegCheck (seg : List Char) : Option (List Char) :=
  genStagesGo 0 (splitPipes seg)

def genSegLoop (command : List Char) : Option (List Char) :=
  (splitSegments command).findSome? genSegCheck

/-- `check_general_readonly` with fuel bounding the substitution recursion
(each extracted inner command is strictly shorter than its host). -/
def checkGeneralF : Nat → List Char → Option (List Char)
  | 0, _ => none
  | f + 1, command =>
    if hasRedirect command then some genRedirMsg
    else if hasCommandSubstitution command then
      if (extractSubstitutionCommands command).any
          (fun inner => (checkGeneralF f inner).isSome) then some genSubstMsg
      else genSegLoop command
    else genSegLoop command

/-- `check_general_readonly`: `some reason` blocks, `none` allows. -/
def checkGeneralList (command : List Char) : Option (List Char) :=
  checkGeneralF (command.length + 1) command

def check_general_readonly (command : String) : Option String :=
  (checkGeneralList command.toList).map fun m => String.mk m

/-! ## Git-readonly checker -/

def gitRedirMsg : List Char :=
  "Blocked: output redirection is not allowed in read-only mode".toList

def gitSubstMsg : List Char :=
  "Blocked: command substitution contains a blocked operation".toList

def blockedGitSubMsg (sub : List Char) : List Char :=
  "Blocked: 'git ".toList ++ sub ++ "' is not allowed in read-only mode".toList

def blockedGitStashMsg (w : List Char) : List Char :=
  "Blocked: 'git stash ".toList ++ w ++
    "' is not allowed in read-only mode".toList

def blockedGitArgMsg (sub w : List Char) : List Char :=
  "Blocked: 'git ".toList ++ sub ++ " ".toList ++ w ++
    "' is not allowed in read-only mode".toList

def gitConfigMsg : List Char :=
  "Blocked: 'git config' is only allowed with --get or --list".toList

def sedInplaceMsg : List Char :=
  "Blocked: 'sed -i' (in-place edit) is not allowed in read-only mode".toList

def notAllowlistedMsg (base : List Char) : List Char :=
  "Blocked: '".toList ++ base ++ "' is not in the read-only allowlist".toList

/-- Git global flags that consume a following value. -/
def gitValueFlags : List (List Char) :=
  ["-C", "-c", "--git-dir", "--work-tree"].map String.toList

/-- Resolve git global flags to find the real subcommand. -/
def findGitSub : List (List Char) → Option (List Char)
  | [] => none
  | w :: rest =>
    if memW w gitValueFlags then
      match rest with
      | [] => none
      | _ :: rest2 => findGitSub rest2
    else if startsWithDash w then findGitSub rest
    else some w

/-- `config` safe flags. -/
def configSafeFlags : List (List Char) :=
  ["--get", "--get-all", "--list", "-l", "--get-regexp"].map String.toList

/-- The per-stage rules of `check_git_readonly` (stage position is unused
in this mode). -/
def gitStageCheck (stage : List Char) : Option (List Char) :=
  match getCmdWords stage with
  | [] => none
  | w0 :: tail0 =>
    match resolvePrefix (w0 :: tail0) with
    | (base, words) =>
      if base.isEmpty then none
      else if base = "git".toList then
        if words.length < 2 then none
        else
          match findGitSub words.tail with
          | none => none
          | some sub =>
            if !memW sub GIT_SAFE_SUBCOMMANDS then some (blockedGitSubMsg sub)
            else
              match gitRestrictedArgs sub with
              | none => none
              | some restricted =>
                if sub = "config".toList then
                  if (words.drop 2).any (fun w => memW w configSafeFlags) then
                    none
                  else some gitConfigMsg
                else if sub = "stash".toList then
                  match (words.drop 2).head? with
                  | some w2 =>
                    if w2 = "list".toList || w2 = "show".toList then none
                    else some (blockedGitStashMsg w2)
                  | none => none
                else
                  match (words.drop 2).find? (fun w => memW w restricted) with
                  | some w => some (blockedGitArgMsg sub w)
                  | none => none
      else if memW base READONLY_UTILITIES then
        if base = "sed".toList && hasSedInplace words then some sedInplaceMsg
        else none
      else some (notAllowlistedMsg base)

def gitSegCheck (seg : List Char) : Option (List Char) :=
  (splitPipes seg).findSome? gitStageCheck

def gitSegLoop (command : List Char) : Option (List Char) :=
  (splitSegments command).findSome? gitSegCheck

/-- `check_git_readonly` with fuel bounding the substitution recursion. -/
def checkGitF : Nat → List Char → Option (List Char)
  | 0, _ => none
  | f + 1, command =>
    if hasRedirect command then some gitRedirMsg
    else if hasCommandSubstitution command then
      if (extractSubstitutionCommands command).any
          (fun inner => (checkGitF f inner).isSome) then some gitSubstMsg
      else gitSegLoop command
    else gitSegLoop command

/-- `check_git_readonly`: `some reason` blocks, `none` allows. -/
def checkGitList (command : List Char) : Option (List Char) :=
  checkGitF (command.length + 1) command

def check_git_readonly (command : String) : Option String :=
  (checkGitList command.toList).map fun m => String.mk m

/-! ## Generic helper lemmas -/

/-! ## Auxiliary definitions -/

/-- Accumulator size of a substitution-scanner state. -/
def stLen : Option (List Char) → Nat
  | none => 0
  | some acc => acc.length

/-- Modelled from the spec: the `$(...)` part of `extractSubstitutions`,
where an entry extends "non-greedily up to the first unmatched `)`" — i.e.
nested `(`/`)` pairs inside the group are tracked by a depth counter and
only an unmatched `)` closes the group.  The rest of the scan mirrors the
source scanner. -/
def specNestedGo : List Char → Option (List Char × Nat) → List (List Char)
  | [], _ => []
  | c :: rest, some (acc, d) =>
    if c = ')' then
      if d = 0 then
        if acc.isEmpty then specNestedGo rest none
        else acc.reverse :: specNestedGo rest none
      else specNestedGo rest (some (c :: acc, d - 1))
    else if c = '(' then specNestedGo rest (some (c :: acc, d + 1))
    else specNestedGo rest (some (c :: acc, d))
  | [_], none => []
  | c :: c2 :: rest2, none =>
    if c = '$' && c2 = '(' then specNestedGo rest2 (some ([], 0))
    else specNestedGo (c2 :: rest2) none

/-- Modelled from the spec: `extractSubstitutions` with unmatched-`)`
group ends (back-tick part as in the source). -/
def specNestedExtract (command : List Char) : List (List Char) :=
  specNestedGo command none ++ ebGo command none

/-- A "plain" character: alphanumeric or `.`, `_`, `/` — carries no shell
metacharacter meaning for the guard. -/
def plainChar (c : Char) : Bool :=
  c.isAlphanum || c = '.' || c = '_' || c = '/'

/-- A plain single token: non-empty, all characters plain. -/
def plainToken (d : List Char) : Prop :=
  d ≠ [] ∧ ∀ x ∈ d, plainChar x = true

/-- The first word of a blocked-prefix entry differs from `w`. -/
def firstWordNe (w : List Char) (pfx : List Char) : Bool :=
  ((splitWs pfx).head?.map (fun p0 => !decide (p0 = w))).getD false

/-- The five-character pattern ` > /t` inside `echo hi > /tmp/x` that
survives `/dev/null` cleaning and anchors the redirect search. -/
def pat5 : List Char := [' ', '>', ' ', '/', 't']

/-- Modelled from the spec: "an output redirection token (`>` or `>>`,
optionally preceded by a file-descriptor number) that does not target
`/dev/null`" — some `>`-run occurs whose target (the text after the run
and optional whitespace) is not `/dev/null`. -/
def specRedirectTokenB : List Char → Bool
  | [] => false
  | c :: rest =>
    if c = '>' then
      if devnullStr.isPrefixOf
          ((rest.dropWhile (fun x => x = '>')).dropWhile isSpace) then
        specRedirectTokenB rest
      else true
    else specRedirectTokenB rest

theorem findSome?_isSome_of_mem {α β : Type} {f : α → Option β} {l : List α}
    {a : α} (ha : a ∈ l) (h : (f a).isSome = true) :
    (l.findSome? f).isSome = true := by
  induction l with
  | nil => cases ha
  | cons hd tl ih =>
    rw [List.findSome?_cons]
    cases hfa : f hd with
    | some b => simp
    | none =>
      rcases List.mem_cons.mp ha with rfl | hmem
      · rw [hfa] at h; simp at h
      · exact ih hmem

theorem genStagesGo_isSome {l : List (List Char)} {st : List Char} :
    ∀ {i j : Nat}, l.get? i = some st →
    (genStageCheck (j + i) st).isSome = true →
    (genStagesGo j l).isSome = true := by
  induction l with
  | nil => intro i j hget _; simp at hget
  | cons hd tl ih =>
    intro i j hget h
    cases i with
    | zero =>
      have hhd : hd = st := by simpa using hget
      rw [← hhd, Nat.add_zero] at h
      rw [genStagesGo]
      cases hc : genStageCheck j hd with
      | some m => rfl
      | none => rw [hc] at h; simp at h
    | succ i' =>
      rw [genStagesGo]
      cases hc : genStageCheck j hd with
      | some m => rfl
      | none =>
        simp only [List.get?] at hget
        have hadd : j + 1 + i' = j + (i' + 1) := by omega
        exact ih hget (by rw [hadd]; exact h)

theorem any_congr_mem {α : Type} {l : List α} {f g : α → Bool}
    (h : ∀ x ∈ l, f x = g x) : l.any f = l.any g := by
  induction l with
  | nil => rfl
  | cons hd tl ih =>
    simp only [List.any_cons, h hd (by simp)]
    rw [ih fun x hx => h x (by simp [hx])]

theorem edGo_mem_length :
    ∀ (n : Nat) (l : List Char), l.length ≤ n → ∀ st x, x ∈ edGo l st →
      x.length < l.length + stLen st := by
  intro n
  induction n with
  | zero =>
    intro l hl st x hx
    have hnil : l = [] := List.length_eq_zero.mp (Nat.le_zero.mp hl)
    subst hnil; simp [edGo] at hx
  | succ n ih =>
    intro l hl st x hx
    cases l with
    | nil => simp [edGo] at hx
    | cons c rest =>
      simp only [List.length_cons] at hl
      cases st with
      | some acc =>
        rw [edGo] at hx
        by_cases hc : c = ')'
        · rw [if_pos hc] at hx
          by_cases he : acc.isEmpty
          · rw [if_pos he] at hx
            have h1 := ih rest (by omega) none x hx
            simp only [stLen, List.length_cons, List.length_nil] at h1 ⊢
            omega
          · rw [if_neg he] at hx
            rcases List.mem_cons.mp hx with rfl | hmem
            · simp only [stLen, List.length_reverse, List.length_cons]
              omega
            · have h1 := ih rest (by omega) none x hmem
              simp only [stLen, List.length_cons, List.length_nil] at h1 ⊢
              omega
        · rw [if_neg hc] at hx
          have h1 := ih rest (by omega) (some (c :: acc)) x hx
          simp only [stLen, List.length_cons, List.length_nil] at h1 ⊢
          omega
      | none =>
        cases rest with
        | nil => simp [edGo] at hx
        | cons c2 rest2 =>
          simp only [List.length_cons] at hl
          rw [edGo] at hx
          by_cases h2 : c = '$' && c2 = '('
          · rw [if_pos h2] at hx
            have h1 := ih rest2 (by omega) (some []) x hx
            simp only [stLen, List.length_cons, List.length_nil] at h1 ⊢
            omega
          · rw [if_neg h2] at hx
            have h1 := ih (c2 :: rest2) (by simp only [List.length_cons]; omega)
              none x hx
            simp only [stLen, List.length_cons, List.length_nil] at h1 ⊢
            omega

theorem ebGo_mem_length :
    ∀ (n : Nat) (l : List Char), l.length ≤ n → ∀ st x, x ∈ ebGo l st →
      x.length < l.length + stLen st := by
  intro n
  induction n with
  | zero =>
    intro l hl st x hx
    have hnil : l = [] := List.length_eq_zero.mp (Nat.le_zero.mp hl)
    subst hnil; simp [ebGo] at hx
  | succ n ih =>
    intro l hl st x hx
    cases l with
    | nil => simp [ebGo] at hx
    | cons c rest =>
      simp only [List.length_cons] at hl
      cases st with
      | some acc =>
        rw [ebGo] at hx
        by_cases hc : c = backtickChar
        · rw [if_pos hc] at hx
          by_cases he : acc.isEmpty
          · rw [if_pos he] at hx
            have h1 := ih rest (by omega) (some []) x hx
            simp only [stLen, List.length_cons, List.length_nil] at h1 ⊢
            omega
          · rw [if_neg he] at hx
            rcases List.mem_cons.mp hx with rfl | hmem
            · simp only [stLen, List.length_reverse, List.length_cons]
              omega
            · have h1 := ih rest (by omega) none x hmem
              simp only [stLen, List.length_cons, List.length_nil] at h1 ⊢
              omega
        · rw [if_neg hc] at hx
          have h1 := ih rest (by omega) (some (c :: acc)) x hx
          simp only [stLen, List.length_cons, List.length_nil] at h1 ⊢
          omega
      | none =>
        rw [ebGo] at hx
        by_cases hc : c = backtickChar
        · rw [if_pos hc] at hx
          have h1 := ih rest (by omega) (some []) x hx
          simp only [stLen, List.length_cons, List.length_nil] at h1 ⊢
          omega
        · rw [if_neg hc] at hx
          have h1 := ih rest (by omega) none x hx
          simp only [stLen, List.length_cons, List.length_nil] at h1 ⊢
          omega

theorem extract_mem_length {c x : List Char}
    (hx : x ∈ extractSubstitutionCommands c) : x.length < c.length := by
  unfold extractSubstitutionCommands at hx
  rcases List.mem_append.mp hx with h | h
  · have h1 := edGo_mem_length c.length c (Nat.le_refl _) none x h
    simpa [stLen] using h1
  · have h1 := ebGo_mem_length c.length c (Nat.le_refl _) none x h
    simpa [stLen] using h1

theorem edGo_ne_nil_dollarParen :
    ∀ l : List Char, edGo l none ≠ [] → hasDollarParen l = true := by
  intro l
  induction l with
  | nil => intro h; simp [edGo] at h
  | cons c rest ih =>
    intro h
    cases rest with
    | nil => simp [edGo] at h
    | cons c2 rest2 =>
      rw [edGo] at h
      by_cases h2 : (c = '$' && c2 = '(') = true
      · rw [hasDollarParen, if_pos h2]
      · rw [if_neg h2] at h
        rw [hasDollarParen, if_neg h2]
        exact ih h

theorem ebGo_ne_nil_backtick :
    ∀ l : List Char, ebGo l none ≠ [] → containsChar backtickChar l = true := by
  intro l
  induction l with
  | nil => intro h; simp [ebGo] at h
  | cons c rest ih =>
    intro h
    rw [ebGo] at h
    rw [containsChar]
    by_cases hc : c = backtickChar
    · rw [if_pos hc]
    · rw [if_neg hc] at h
      rw [if_neg hc]
      exact ih h

theorem hasSubst_of_mem_extract {c inner : List Char}
    (hmem : inner ∈ extractSubstitutionCommands c) :
    hasCommandSubstitution c = true := by
  unfold extractSubstitutionCommands at hmem
  unfold hasCommandSubstitution
  rcases List.mem_append.mp hmem with h | h
  · rw [edGo_ne_nil_dollarParen c (List.ne_nil_of_mem h)]
    rfl
  · rw [ebGo_ne_nil_backtick c (List.ne_nil_of_mem h)]
    simp

theorem checkGeneralF_adequate :
    ∀ (f1 f2 : Nat) (c : List Char), c.length < f1 → c.length < f2 →
      checkGeneralF f1 c = checkGeneralF f2 c := by
  intro f1
  induction f1 with
  | zero => intro f2 c h1 _; omega
  | succ f ih =>
    intro f2 c h1 h2
    cases f2 with
    | zero => omega
    | succ f2' =>
      simp only [checkGeneralF]
      have hany : (extractSubstitutionCommands c).any
            (fun inner => (checkGeneralF f inner).isSome)
          = (extractSubstitutionCommands c).any
            (fun inner => (checkGeneralF f2' inner).isSome) := by
        apply any_congr_mem
        intro x hx
        have hxl := extract_mem_length hx
        rw [ih f2' x (by omega) (by omega)]
      rw [hany]

/-! ## Top-level plumbing lemmas for the two checkers -/

theorem checkGeneralList_isSome_of_segLoop {c : List Char}
    (h : (genSegLoop c).isSome = true) : (checkGeneralList c).isSome = true := by
  unfold checkGeneralList
  rw [checkGeneralF]
  by_cases hr : hasRedirect c
  · rw [if_pos hr]; rfl
  · rw [if_neg hr]
    by_cases hs : hasCommandSubstitution c
    · rw [if_pos hs]
      by_cases ha : (extractSubstitutionCommands c).any
          (fun inner => (checkGeneralF c.length inner).isSome) = true
      · rw [if_pos ha]; rfl
      · rw [if_neg ha]; exact h
    · rw [if_neg hs]; exact h

theorem checkGitList_isSome_of_segLoop {c : List Char}
    (h : (gitSegLoop c).isSome = true) : (checkGitList c).isSome = true := by
  unfold checkGitList
  rw [checkGitF]
  by_cases hr : hasRedirect c
  · rw [if_pos hr]; rfl
  · rw [if_neg hr]
    by_cases hs : hasCommandSubstitution c
    · rw [if_pos hs]
      by_cases ha : (extractSubstitutionCommands c).any
          (fun inner => (checkGitF c.length inner).isSome) = true
      · rw [if_pos ha]; rfl
      · rw [if_neg ha]; exact h
    · rw [if_neg hs]; exact h

theorem gitStageCheck_blocked {stage : List Char}
    (hne : (resolvePrefix (getCmdWords stage)).1 ≠ [])
    (hgit : (resolvePrefix (getCmdWords stage)).1 ≠ "git".toList)
    (hutil : memW (resolvePrefix (getCmdWords stage)).1 READONLY_UTILITIES
      = false) :
    (gitStageCheck stage).isSome = true := by
  unfold gitStageCheck
  cases hw : getCmdWords stage with
  | nil =>
    rw [hw] at hne
    simp [resolvePrefix] at hne
  | cons w0 tail0 =>
    rw [hw] at hne hgit hutil
    set base := (resolvePrefix (w0 :: tail0)).1 with hbase
    set ws := (resolvePrefix (w0 :: tail0)).2 with hws
    have hpair : resolvePrefix (w0 :: tail0) = (base, ws) := rfl
    simp only [hpair]
    have hie : base.isEmpty = false := by
      cases hb : base with
      | nil => exact absurd hb hne
      | cons a b => rfl
    rw [hie]
    simp only [Bool.false_eq_true, if_false]
    rw [if_neg hgit, hutil]
    simp only [Bool.false_eq_true, if_false]
    rfl

theorem genStageCheck_blocked_interp {i : Nat} {stage : List Char}
    (hi : 0 < i)
    (hint : memW (resolvePrefix (getCmdWords stage)).1 INTERPRETERS = true) :
    (genStageCheck i stage).isSome = true := by
  unfold genStageCheck
  cases hw : getCmdWords stage with
  | nil =>
    rw [hw] at hint
    simp [resolvePrefix] at hint
    exact absurd hint (by decide)
  | cons w0 tail0 =>
    rw [hw] at hint
    set base := (resolvePrefix (w0 :: tail0)).1 with hbase
    set ws := (resolvePrefix (w0 :: tail0)).2 with hws
    have hpair : resolvePrefix (w0 :: tail0) = (base, ws) := rfl
    simp only [hpair]
    have hne : base ≠ [] := by
      intro hb; rw [hb] at hint; exact absurd hint (by decide)
    have hie : base.isEmpty = false := by
      cases hb : base with
      | nil => exact absurd hb hne
      | cons a b => rfl
    rw [hie]
    simp only [Bool.false_eq_true, if_false]
    by_cases hwc : memW base WRITE_COMMANDS = true
    · rw [hwc]; simp
    · rw [Bool.not_eq_true] at hwc
      rw [hwc]
      simp only [Bool.false_eq_true, if_false]
      cases hfm : firstMatchingPfx (base :: ws.tail) writePrefixList with
      | some wp => rfl
      | none =>
        have hcond : (decide (0 < i) && memW base INTERPRETERS) = true := by
          rw [hint, decide_eq_true hi]; rfl
        rw [hcond]
        simp

/-! ## Claim theorems -/

/-- C2: in git-readonly mode, any pipe stage whose resolved base command is
non-empty, not `git`, and not in the safe-utility allowlist causes the whole
command to be blocked (default-deny); in particular `docker ps` is blocked. -/
theorem claim2_git_default_deny :
    (∀ c seg stage : List Char, seg ∈ splitSegments c →
      stage ∈ splitPipes seg →
      (resolvePrefix (getCmdWords stage)).1 ≠ [] →
      (resolvePrefix (getCmdWords stage)).1 ≠ "git".toList →
      memW (resolvePrefix (getCmdWords stage)).1 READONLY_UTILITIES = false →
      (checkGitList c).isSome = true) ∧
    (check_git_readonly "docker ps").isSome = true := by
  constructor
  · intro c seg stage hseg hstage hne hgit hutil
    apply checkGitList_isSome_of_segLoop
    apply findSome?_isSome_of_mem hseg
    unfold gitSegCheck
    apply findSome?_isSome_of_mem hstage
    exact gitStageCheck_blocked hne hgit hutil
  · decide

/-- Witness for C2: the universal part applied to the concrete command
`docker ps`. -/
theorem claim2_git_default_deny_witness :
    (checkGitList ("docker ps".toList)).isSome = true :=
  claim2_git_default_deny.1 ("docker ps".toList) ("docker ps".toList)
    ("docker ps".toList) (by decide) (by decide) (by decide) (by decide)
    (by decide)

/-- C3: in general-readonly mode, every inner command extracted from a
`$(...)` or back-tick substitution is recursively evaluated and any inner
violation blocks the whole line; in particular `echo $(rm file)` is
blocked. -/
theorem claim3_substitution_recursive :
    (∀ c inner : List Char, inner ∈ extractSubstitutionCommands c →
      (checkGeneralList inner).isSome = true →
      (checkGeneralList c).isSome = true) ∧
    (check_general_readonly "echo $(rm file)").isSome = true := by
  constructor
  · intro c inner hmem hin
    unfold checkGeneralList
    rw [checkGeneralF]
    by_cases hr : hasRedirect c
    · rw [if_pos hr]; rfl
    · rw [if_neg hr]
      rw [if_pos (hasSubst_of_mem_extract hmem)]
      have ha : (extractSubstitutionCommands c).any
          (fun inner => (checkGeneralF c.length inner).isSome) = true := by
        apply List.any_eq_true.mpr
        refine ⟨inner, hmem, ?_⟩
        have hl := extract_mem_length hmem
        rw [checkGeneralF_adequate c.length (inner.length + 1) inner hl
          (by omega)]
        exact hin
      rw [if_pos ha]; rfl
  · decide

/-- Witness for C3: the universal part applied to ``ls `rm file` `` with the
inner command `rm file`. -/
theorem claim3_substitution_recursive_witness :
    (checkGeneralList ("ls `rm file`".toList)).isSome = true :=
  claim3_substitution_recursive.1 ("ls `rm file`".toList) ("rm file".toList)
    (by decide) (by decide)

/-- C4: the segmenter splits on `;`, `&&`, `||`, and a lone `&` (never
consuming `&&` as two single `&`s), trims pieces and drops empties, each
segment is evaluated independently, and consequently `true; rm -rf /tmp/x`
is blocked in general-readonly mode. -/
theorem claim4_segment_split :
    (∀ c seg : List Char, seg ∈ splitSegments c →
      (genSegCheck seg).isSome = true → (checkGeneralList c).isSome = true) ∧
    splitSegments ("true; rm -rf /tmp/x".toList)
      = ["true".toList, "rm -rf /tmp/x".toList] ∧
    splitSegments ("a && b".toList) = ["a".toList, "b".toList] ∧
    splitSegments ("a &&& b".toList) = ["a".toList, "& b".toList] ∧
    splitSegments ("a || b ; c & d".toList)
      = ["a".toList, "b".toList, "c".toList, "d".toList] ∧
    splitSegments ("  a  ;;  b  ".toList) = ["a".toList, "b".toList] ∧
    (check_general_readonly "true; rm -rf /tmp/x").isSome = true := by
  refine ⟨?_, by decide, by decide, by decide, by decide, by decide, by decide⟩
  intro c seg hseg h
  exact checkGeneralList_isSome_of_segLoop (findSome?_isSome_of_mem hseg h)

/-- Witness for C4: the universal part applied to `true; rm -rf /tmp/x` and
its second segment. -/
theorem claim4_segment_split_witness :
    (checkGeneralList ("true; rm -rf /tmp/x".toList)).isSome = true :=
  claim4_segment_split.1 ("true; rm -rf /tmp/x".toList)
    ("rm -rf /tmp/x".toList) (by decide) (by decide)

/-- C5: in general-readonly mode a pipe stage at position `> 0` whose
resolved base is an interpreter blocks the command; `curl http://x | bash`
is blocked while `cat file | grep foo` is allowed. -/
theorem claim5_pipe_interpreter :
    (∀ (c seg stage : List Char) (i : Nat), seg ∈ splitSegments c →
      (splitPipes seg).get? i = some stage → 0 < i →
      memW (resolvePrefix (getCmdWords stage)).1 INTERPRETERS = true →
      (checkGeneralList c).isSome = true) ∧
    (check_general_readonly "curl http://x | bash").isSome = true ∧
    check_general_readonly "cat file | grep foo" = none := by
  refine ⟨?_, by decide, by decide⟩
  intro c seg stage i hseg hget hi hint
  apply checkGeneralList_isSome_of_segLoop
  apply findSome?_isSome_of_mem hseg
  unfold genSegCheck
  apply genStagesGo_isSome hget
  rw [Nat.zero_add]
  exact genStageCheck_blocked_interp hi hint

/-- Witness for C5: the universal part applied to `curl http://x | bash`,
stage 1 (`bash`). -/
theorem claim5_pipe_interpreter_witness :
    (checkGeneralList ("curl http://x | bash".toList)).isSome = true :=
  claim5_pipe_interpreter.1 ("curl http://x | bash".toList)
    ("curl http://x | bash".toList) ("bash".toList) 1 (by decide) (by decide)
    (by decide) (by decide)

/-- C7: git-readonly allowlist decisions for the six reference commands:
`git log -5` allowed; `git branch -D feature` blocked; `git stash list`
allowed; `git stash pop` blocked; `git config --get user.name` allowed;
`git config user.name x` blocked. -/
theorem claim7_git_allowlist_precision :
    check_git_readonly "git log -5" = none ∧
    (check_git_readonly "git branch -D feature").isSome = true ∧
    check_git_readonly "git stash list" = none ∧
    (check_git_readonly "git stash pop").isSome = true ∧
    check_git_readonly "git config --get user.name" = none ∧
    (check_git_readonly "git config user.name x").isSome = true := by
  refine ⟨by decide, by decide, by decide, by decide, by decide, by decide⟩

/-! ## Lemmas about base-name resolution (C6) -/

theorem containsChar_eq_false {c : Char} {l : List Char} :
    containsChar c l = false ↔ ∀ x ∈ l, x ≠ c := by
  induction l with
  | nil => simp [containsChar]
  | cons hd tl ih =>
    rw [containsChar]
    by_cases h : hd = c
    · rw [if_pos h]
      simp [h]
    · rw [if_neg h]
      rw [ih]
      constructor
      · intro ha x hx
        rcases List.mem_cons.mp hx with rfl | hm
        · exact h
        · exact ha x hm
      · intro ha x hx
        exact ha x (by simp [hx])

theorem containsChar_of_mem {c : Char} {l : List Char} (h : c ∈ l) :
    containsChar c l = true := by
  induction l with
  | nil => cases h
  | cons hd tl ih =>
    rw [containsChar]
    by_cases hc : hd = c
    · rw [if_pos hc]
    · rw [if_neg hc]
      rcases List.mem_cons.mp h with rfl | hm
      · exact absurd rfl hc
      · exact ih hm

theorem takeWhile_append_stop {q : Char → Bool} {u : List Char} {b : Char}
    {t : List Char} (hu : ∀ x ∈ u, q x = true) (hb : q b = false) :
    (u ++ b :: t).takeWhile q = u := by
  induction u with
  | nil => simp [List.takeWhile, hb]
  | cons hd tl ih =>
    rw [List.cons_append, List.takeWhile]
    rw [hu hd (by simp)]
    rw [ih fun x hx => hu x (by simp [hx])]

theorem stripBackslashes_append (p l : List Char) :
    stripBackslashes (p ++ l)
      = if (stripBackslashes p).isEmpty then stripBackslashes l
        else stripBackslashes p ++ l := by
  induction p with
  | nil => simp [stripBackslashes]
  | cons c p' ih =>
    rw [List.cons_append, stripBackslashes]
    by_cases hc : c = '\\'
    · rw [if_pos hc, ih]
      have : stripBackslashes (c :: p') = stripBackslashes p' := by
        rw [stripBackslashes, if_pos hc]
      rw [this]
    · rw [if_neg hc]
      have : stripBackslashes (c :: p') = c :: p' := by
        rw [stripBackslashes, if_neg hc]
      rw [this]
      simp

theorem afterLastSlash_append {z w : List Char} (hw : ∀ x ∈ w, x ≠ '/') :
    afterLastSlash (z ++ '/' :: w) = w := by
  unfold afterLastSlash
  have hr : (z ++ '/' :: w).reverse = w.reverse ++ '/' :: z.reverse := by
    rw [List.reverse_append, List.reverse_cons, List.append_assoc]
    simp
  rw [hr]
  rw [takeWhile_append_stop (q := fun c => decide (c ≠ '/'))
    (fun x hx => by simp; exact hw x (List.mem_reverse.mp hx)) (by simp)]
  simp

/-! ## Spec-modelled extraction with nested-parenthesis tracking (C8) -/

theorem edGo_inside (rest : List Char) :
    ∀ (g acc : List Char), (∀ x ∈ g, x ≠ ')') →
      edGo (g ++ ')' :: rest) (some acc)
        = if (acc.reverse ++ g).isEmpty then edGo rest none
          else (acc.reverse ++ g) :: edGo rest none := by
  intro g
  induction g with
  | nil =>
    intro acc _
    rw [List.nil_append, edGo, if_pos rfl, List.append_nil]
    by_cases he : acc.isEmpty
    · rw [if_pos he]
      have : acc.reverse.isEmpty = true := by
        rw [List.isEmpty_iff] at he ⊢
        simp [he]
      rw [if_pos this]
    · rw [if_neg he]
      have : acc.reverse.isEmpty = false := by
        rw [Bool.not_eq_true] at he
        rw [List.isEmpty_eq_false] at he ⊢
        simp [he]
      rw [this]
      simp
  | cons c g' ih =>
    intro acc hg
    have hc : c ≠ ')' := hg c (by simp)
    rw [List.cons_append, edGo, if_neg hc]
    rw [ih (c :: acc) (fun x hx => hg x (by simp [hx]))]
    have hre : (c :: acc).reverse ++ g' = acc.reverse ++ c :: g' := by
      rw [List.reverse_cons, List.append_assoc]
      simp
    rw [hre]

theorem ebGo_inside (rest : List Char) :
    ∀ (g acc : List Char), (∀ x ∈ g, x ≠ backtickChar) →
      acc.reverse ++ g ≠ [] →
      ebGo (g ++ backtickChar :: rest) (some acc)
        = (acc.reverse ++ g) :: ebGo rest none := by
  intro g
  induction g with
  | nil =>
    intro acc _ hne
    rw [List.append_nil] at hne ⊢
    rw [List.nil_append, ebGo, if_pos rfl]
    have he : acc.isEmpty = false := by
      rw [List.isEmpty_eq_false]
      intro hacc
      exact hne (by simp [hacc])
    rw [he]
    simp
  | cons c g' ih =>
    intro acc hg _
    have hc : c ≠ backtickChar := hg c (by simp)
    rw [List.cons_append, ebGo, if_neg hc]
    have hre : (c :: acc).reverse ++ g' = acc.reverse ++ c :: g' := by
      rw [List.reverse_cons, List.append_assoc]
      simp
    rw [ih (c :: acc) (fun x hx => hg x (by simp [hx])) (by simp [hre]), hre]

/-! ## Claim theorems C6 and C8 -/

/-- C6: the resolver strips a leading backslash and any path directory
prefix, keeping only the final path component, so `/bin/rm file` and
`\rm file` both block identically to `rm file` in general-readonly mode. -/
theorem claim6_base_resolution :
    (∀ w : List Char, baseName ('\\' :: w) = baseName w) ∧
    (∀ p w : List Char, stripBackslashes w = w → containsChar '/' w = false →
      baseName (p ++ '/' :: w) = baseName w) ∧
    check_general_readonly "/bin/rm file" = check_general_readonly "rm file" ∧
    check_general_readonly "\\rm file" = check_general_readonly "rm file" ∧
    (check_general_readonly "rm file").isSome = true := by
  refine ⟨?_, ?_, by decide, by decide, by decide⟩
  · intro w
    unfold baseName
    dsimp only
    have : stripBackslashes ('\\' :: w) = stripBackslashes w := by
      rw [stripBackslashes, if_pos rfl]
    rw [this]
  · intro p w hsw hcw
    have hwmem : ∀ x ∈ w, x ≠ '/' := containsChar_eq_false.mp hcw
    unfold baseName
    dsimp only
    rw [hsw, hcw]
    simp only [Bool.false_eq_true, if_false]
    rw [stripBackslashes_append]
    have hsl : stripBackslashes ('/' :: w) = '/' :: w := by
      rw [stripBackslashes, if_neg (by decide)]
    by_cases he : (stripBackslashes p).isEmpty
    · rw [if_pos he, hsl]
      have hcc : containsChar '/' ('/' :: w) = true :=
        containsChar_of_mem (by simp)
      rw [hcc]
      simp only [if_true]
      have := afterLastSlash_append (z := []) hwmem
      simpa using this
    · rw [if_neg he]
      have hcc :
          containsChar '/' (stripBackslashes p ++ '/' :: w) = true :=
        containsChar_of_mem (by simp)
      rw [hcc]
      simp only [if_true]
      exact afterLastSlash_append hwmem

/-- Witness for C6: the path-prefix part applied to `/bin` and `rm`. -/
theorem claim6_base_resolution_witness :
    baseName ("/bin".toList ++ '/' :: "rm".toList) = baseName ("rm".toList) :=
  claim6_base_resolution.2.1 ("/bin".toList) ("rm".toList) (by decide)
    (by decide)

/-- C8 counterexample: on `$( (a) )` the source extraction stops at the
first `)` (yielding ` (a`), not at the first unmatched `)` (which would
yield ` (a) ` as the claim describes). -/
theorem claim8_counterexample :
    extractSubstitutionCommands ("$( (a) )".toList) = [" (a".toList] ∧
    specNestedExtract ("$( (a) )".toList) = [" (a) ".toList] ∧
    extractSubstitutionCommands ("$( (a) )".toList)
      ≠ specNestedExtract ("$( (a) )".toList) := by
  refine ⟨by decide, by decide, by decide⟩

/-- C8 (amended): extraction returns one entry per `$(...)` group, where
each entry extends up to the first closing parenthesis (nested parentheses
are not tracked), plus one entry per pair of back-tick-delimited spans,
dollar groups first. -/
theorem claim8_extraction_amended :
    (∀ g rest : List Char, containsChar ')' g = false → g ≠ [] →
      edGo ('$' :: '(' :: (g ++ ')' :: rest)) none = g :: edGo rest none) ∧
    (∀ g rest : List Char, containsChar backtickChar g = false → g ≠ [] →
      ebGo (backtickChar :: (g ++ backtickChar :: rest)) none
        = g :: ebGo rest none) ∧
    (∀ l : List Char, extractSubstitutionCommands l
      = edGo l none ++ ebGo l none) := by
  refine ⟨?_, ?_, fun l => rfl⟩
  · intro g rest hg hne
    rw [edGo, if_pos (by decide)]
    rw [edGo_inside rest g [] (containsChar_eq_false.mp hg)]
    rw [List.reverse_nil, List.nil_append]
    have he : g.isEmpty = false := by
      rw [List.isEmpty_eq_false]; exact hne
    rw [he]
    simp
  · intro g rest hg hne
    rw [ebGo, if_pos rfl]
    rw [ebGo_inside rest g [] (containsChar_eq_false.mp hg)
      (by simpa using hne)]
    simp

/-- Witness for C8's amended theorem: applied to the group `ls` inside
`$(ls)` and a back-tick pair around `pwd`. -/
theorem claim8_extraction_amended_witness :
    edGo ('$' :: '(' :: ("ls".toList ++ ')' :: [])) none
        = "ls".toList :: edGo [] none ∧
    ebGo (backtickChar :: ("pwd".toList ++ backtickChar :: [])) none
        = "pwd".toList :: ebGo [] none :=
  ⟨claim8_extraction_amended.1 ("ls".toList) [] (by decide) (by decide),
   claim8_extraction_amended.2.1 ("pwd".toList) [] (by decide) (by decide)⟩

/-! ## Plain tokens and pipeline identity lemmas (for C9, C10) -/

theorem plainChar_ne_of {c d : Char} (h : plainChar c = true)
    (hd : plainChar d = false) : c ≠ d := by
  intro he; rw [he, hd] at h; cases h

theorem isSpace_false_of_plain {c : Char} (h : plainChar c = true) :
    isSpace c = false := by
  by_contra hs
  rw [Bool.not_eq_false] at hs
  simp only [isSpace, Bool.or_eq_true, decide_eq_true_eq] at hs
  obtain ((((h1 | h1) | h1) | h1) | h1) | h1 := hs <;>
    (subst h1; exact absurd h (by decide))

theorem containsChar_cons_false {c x : Char} {rest : List Char} :
    containsChar c (x :: rest) = false ↔
      x ≠ c ∧ containsChar c rest = false := by
  rw [containsChar]
  by_cases h : x = c
  · rw [if_pos h]; simp [h]
  · rw [if_neg h]; simp [h]

theorem replaceBsNl_id : ∀ {l : List Char},
    containsChar '\\' l = false → replaceBsNl l = l := by
  intro l
  induction l with
  | nil => intro _; rfl
  | cons c rest ih =>
    intro h
    obtain ⟨hc, hrest⟩ := containsChar_cons_false.mp h
    cases rest with
    | nil => rfl
    | cons c2 rest2 =>
      rw [replaceBsNl]
      have : (c = '\\' && c2 = '\n') = false := by
        rw [decide_eq_false hc]; rfl
      rw [this]
      simp only [Bool.false_eq_true, if_false]
      rw [ih hrest]

theorem segSplit_no_sep :
    ∀ (l : List Char) (prev : Option Char) (cur : List Char),
      (∀ x ∈ l, x ≠ ';' ∧ x ≠ '&' ∧ x ≠ '|') →
      segSplit l prev cur = [cur.reverse ++ l] := by
  intro l
  induction l with
  | nil => intro prev cur _; simp [segSplit]
  | cons c rest ih =>
    intro prev cur h
    obtain ⟨h1, h2, h3⟩ := h c (by simp)
    cases rest with
    | nil =>
      rw [segSplit, if_neg h1, if_neg h2]
      simp
    | cons c2 rest2 =>
      rw [segSplit, if_neg h1, if_neg h2, if_neg h3]
      rw [ih (some c) (c :: cur) (fun x hx => h x (by simp [hx]))]
      simp

theorem pipeSplit_no_pipe :
    ∀ (l : List Char) (prev : Option Char) (cur : List Char),
      (∀ x ∈ l, x ≠ '|') →
      pipeSplit l prev cur = [cur.reverse ++ l] := by
  intro l
  induction l with
  | nil => intro prev cur _; simp [pipeSplit]
  | cons c rest ih =>
    intro prev cur h
    have h1 : c ≠ '|' := h c (by simp)
    cases rest with
    | nil =>
      rw [pipeSplit, if_neg h1]
      simp [pipeSplit]
    | cons c2 rest2 =>
      rw [pipeSplit, if_neg h1]
      rw [ih (some c) (c :: cur) (fun x hx => h x (by simp [hx]))]
      simp

theorem pyStrip_eq_self {l : List Char}
    (hh : ∀ x, l.head? = some x → isSpace x = false)
    (hl : ∀ x, l.getLast? = some x → isSpace x = false) :
    pyStrip l = l := by
  unfold pyStrip
  have e1 : l.dropWhile isSpace = l := by
    cases l with
    | nil => rfl
    | cons a m =>
      rw [List.dropWhile_cons, hh a rfl]
      simp
  rw [e1]
  have e2 : l.reverse.dropWhile isSpace = l.reverse := by
    cases hr : l.reverse with
    | nil => rfl
    | cons a m =>
      have hga : l.getLast? = some a := by
        rw [← List.head?_reverse, hr]; rfl
      rw [List.dropWhile_cons, hl a hga]
      simp
  rw [e2, List.reverse_reverse]

theorem splitWsAux_word {rest : List Char} :
    ∀ (w cur : List Char), (∀ x ∈ w, isSpace x = false) →
      (cur ≠ [] ∨ w ≠ []) →
      splitWsAux (w ++ ' ' :: rest) cur
        = (cur.reverse ++ w) :: splitWsAux rest [] := by
  intro w
  induction w with
  | nil =>
    intro cur _ hne
    have hcur : cur ≠ [] := by
      rcases hne with h | h
      · exact h
      · exact absurd rfl h
    rw [List.nil_append, splitWsAux]
    have hsp : isSpace ' ' = true := by decide
    rw [hsp]
    have hce : cur.isEmpty = false := by
      rw [List.isEmpty_eq_false]; exact hcur
    rw [hce]
    simp
  | cons c w' ih =>
    intro cur hw _
    rw [List.cons_append, splitWsAux, hw c (by simp)]
    simp only [Bool.false_eq_true, if_false]
    rw [ih (c :: cur) (fun x hx => hw x (by simp [hx])) (Or.inl (by simp))]
    have : (c :: cur).reverse ++ w' = cur.reverse ++ c :: w' := by
      rw [List.reverse_cons, List.append_assoc]; simp
    rw [this]

theorem splitWsAux_last :
    ∀ (w cur : List Char), (∀ x ∈ w, isSpace x = false) →
      (cur ≠ [] ∨ w ≠ []) →
      splitWsAux w cur = [cur.reverse ++ w] := by
  intro w
  induction w with
  | nil =>
    intro cur _ hne
    have hcur : cur ≠ [] := by
      rcases hne with h | h
      · exact h
      · exact absurd rfl h
    rw [splitWsAux]
    have hce : cur.isEmpty = false := by
      rw [List.isEmpty_eq_false]; exact hcur
    rw [hce]
    simp
  | cons c w' ih =>
    intro cur hw _
    rw [splitWsAux, hw c (by simp)]
    simp only [Bool.false_eq_true, if_false]
    rw [ih (c :: cur) (fun x hx => hw x (by simp [hx])) (Or.inl (by simp))]
    have : (c :: cur).reverse ++ w' = cur.reverse ++ c :: w' := by
      rw [List.reverse_cons, List.append_assoc]; simp
    rw [this]

/-! The redirect and substitution detectors are inert on strings free of
`>`, `$` and back-tick characters. -/

theorem gtDev_none {l : List Char} (h : containsChar '>' l = false) :
    gtDev l = none := by
  cases l with
  | nil => rfl
  | cons c t =>
    obtain ⟨hc, _⟩ := containsChar_cons_false.mp h
    rw [gtDev, if_neg hc]

theorem devNullLen_none {l : List Char} (h : containsChar '>' l = false) :
    devNullLen l = none := by
  cases l with
  | nil => rfl
  | cons c rest =>
    obtain ⟨_, hrest⟩ := containsChar_cons_false.mp h
    rw [devNullLen]
    by_cases hc : (c = '1' || c = '2') = true
    · rw [if_pos hc, gtDev_none hrest, gtDev_none h]
      rfl
    · rw [if_neg hc, gtDev_none h]

theorem cleanDevNullF_id :
    ∀ (f : Nat) {l : List Char}, containsChar '>' l = false →
      cleanDevNullF f l = l := by
  intro f
  induction f with
  | zero => intro l _; rfl
  | succ f ih =>
    intro l h
    cases l with
    | nil => rfl
    | cons c rest =>
      obtain ⟨_, hrest⟩ := containsChar_cons_false.mp h
      rw [cleanDevNullF, devNullLen_none h]
      rw [ih hrest]

theorem gtRun_false {l : List Char} (h : containsChar '>' l = false) :
    gtRun l = false := by
  cases l with
  | nil => rfl
  | cons c t =>
    obtain ⟨hc, _⟩ := containsChar_cons_false.mp h
    rw [gtRun, if_neg hc]

theorem redirCoreB_false {l : List Char} (h : containsChar '>' l = false) :
    redirCoreB l = false := by
  cases l with
  | nil => rfl
  | cons c rest =>
    obtain ⟨_, hrest⟩ := containsChar_cons_false.mp h
    rw [redirCoreB]
    by_cases hc : (c = '1' || c = '2') = true
    · rw [if_pos hc, gtRun_false hrest, gtRun_false h]
      rfl
    · rw [if_neg hc, gtRun_false h]

theorem searchRedirAux_false : ∀ {l : List Char},
    containsChar '>' l = false → searchRedirAux l = false := by
  intro l
  induction l with
  | nil => intro _; rfl
  | cons c rest ih =>
    intro h
    obtain ⟨_, hrest⟩ := containsChar_cons_false.mp h
    rw [searchRedirAux, redirCoreB_false hrest, ih hrest]
    simp

theorem hasRedirect_false {l : List Char} (h : containsChar '>' l = false) :
    hasRedirect l = false := by
  unfold hasRedirect cleanDevNull
  dsimp only
  rw [cleanDevNullF_id l.length h]
  rw [redirCoreB_false h, searchRedirAux_false h]
  rfl

theorem hasDollarParen_false : ∀ {l : List Char},
    containsChar '$' l = false → hasDollarParen l = false := by
  intro l
  induction l with
  | nil => intro _; rfl
  | cons c rest ih =>
    intro h
    obtain ⟨hc, hrest⟩ := containsChar_cons_false.mp h
    cases rest with
    | nil => rfl
    | cons c2 rest2 =>
      rw [hasDollarParen]
      have hcc : (c = '$' && c2 = '(') = false := by
        rw [decide_eq_false hc]; rfl
      rw [hcc]
      simp only [Bool.false_eq_true, if_false]
      exact ih hrest

theorem hasCommandSubstitution_false {l : List Char}
    (hd : containsChar '$' l = false)
    (hb : containsChar backtickChar l = false) :
    hasCommandSubstitution l = false := by
  unfold hasCommandSubstitution
  rw [hasDollarParen_false hd, hb]
  rfl

theorem splitSegments_single {l : List Char}
    (hsep : ∀ x ∈ l, x ≠ ';' ∧ x ≠ '&' ∧ x ≠ '|')
    (hbs : containsChar '\\' l = false)
    (hstrip : pyStrip l = l) (hne : l ≠ []) :
    splitSegments l = [l] := by
  unfold splitSegments
  rw [replaceBsNl_id hbs, segSplit_no_sep l none [] hsep]
  simp only [List.reverse_nil, List.nil_append, List.map_cons, List.map_nil,
    hstrip, List.filter]
  have : l.isEmpty = false := by rw [List.isEmpty_eq_false]; exact hne
  rw [this]
  rfl

theorem splitPipes_single {l : List Char}
    (hsep : ∀ x ∈ l, x ≠ '|')
    (hstrip : pyStrip l = l) (hne : l ≠ []) :
    splitPipes l = [l] := by
  unfold splitPipes
  rw [pipeSplit_no_pipe l none [] hsep]
  simp only [List.reverse_nil, List.nil_append, List.map_cons, List.map_nil,
    hstrip, List.filter]
  have : l.isEmpty = false := by rw [List.isEmpty_eq_false]; exact hne
  rw [this]
  rfl

/-! ## Further helpers for symbolic-token commands -/

theorem containsChar_append_false {c : Char} {u v : List Char} :
    containsChar c (u ++ v) = false ↔
      containsChar c u = false ∧ containsChar c v = false := by
  induction u with
  | nil => simp [containsChar]
  | cons x u' ih =>
    rw [List.cons_append, containsChar_cons_false, containsChar_cons_false,
      ih]
    tauto

theorem getLast?_append_right {u v : List Char} (hv : v ≠ []) :
    (u ++ v).getLast? = v.getLast? := by
  rw [← List.head?_reverse, ← List.head?_reverse, List.reverse_append]
  cases hr : v.reverse with
  | nil => exact absurd (by simpa using hr) hv
  | cons a t => rw [List.cons_append]; rfl

theorem mem_of_head?_eq {x : Char} {l : List Char} (h : l.head? = some x) :
    x ∈ l := by
  cases l with
  | nil => cases h
  | cons a t =>
    rw [List.head?_cons] at h
    exact (Option.some.inj h) ▸ List.mem_cons_self a t

theorem mem_of_getLast?_eq {x : Char} {l : List Char}
    (h : l.getLast? = some x) : x ∈ l := by
  rw [← List.head?_reverse] at h
  exact List.mem_reverse.mp (mem_of_head?_eq h)

theorem firstMatchingPfx_none {w : List Char} {rest : List (List Char)} :
    ∀ {pl : List (List Char)}, pl.all (firstWordNe w) = true →
      firstMatchingPfx (w :: rest) pl = none := by
  intro pl
  induction pl with
  | nil => intro _; rfl
  | cons wp pl' ih =>
    intro h
    rw [List.all_cons, Bool.and_eq_true] at h
    obtain ⟨h1, h2⟩ := h
    rw [firstMatchingPfx]
    have hm : matchesPrefix (w :: rest) wp = false := by
      unfold matchesPrefix
      unfold firstWordNe at h1
      cases hsw : splitWs wp with
      | nil => rw [hsw] at h1; cases h1
      | cons p0 ps =>
        rw [hsw] at h1
        simp only [List.head?_cons, Option.map_some', Option.getD_some,
          Bool.not_eq_true'] at h1
        have hne : ¬(w = p0) := by
          intro he
          rw [he] at h1
          simp at h1
        rw [wordsMatch, if_neg hne]
    rw [hm]
    simp only [Bool.false_eq_true, if_false]
    exact ih h2

/-- The stage-level fact behind C9: with a value-consuming global flag
before `stash`, the position-based check tests the flag's value. -/
theorem gitStageCheck_stash_flagval {stage d : List Char}
    (hw : getCmdWords stage
      = ["git".toList, "-C".toList, d, "stash".toList, "list".toList])
    (hlist : d ≠ "list".toList) (hshow : d ≠ "show".toList) :
    (gitStageCheck stage).isSome = true := by
  have hrp : resolvePrefix (["git".toList, "-C".toList, d, "stash".toList,
      "list".toList])
      = ("git".toList,
         ["git".toList, "-C".toList, d, "stash".toList, "list".toList]) := rfl
  have hsub : findGitSub (["-C".toList, d, "stash".toList, "list".toList])
      = some ("stash".toList) := rfl
  have hra : gitRestrictedArgs ("stash".toList)
      = some (["drop", "clear", "pop", "apply", "push", "save", "create",
               "store"].map String.toList) := rfl
  have hdrop : (["git".toList, "-C".toList, d, "stash".toList,
      "list".toList]).drop 2 = [d, "stash".toList, "list".toList] := rfl
  unfold gitStageCheck
  rw [hw]
  simp only [hrp, List.tail_cons, hsub, hra, hdrop]
  simp [hlist, hshow]
  rw [if_neg (by decide :
    ¬(memW ['s', 't', 'a', 's', 'h'] GIT_SAFE_SUBCOMMANDS = false))]
  rw [if_neg (fun hor : d = ['l', 'i', 's', 't'] ∨ d = ['s', 'h', 'o', 'w'] =>
    hor.elim (fun h => hlist h) (fun h => hshow h))]
  rfl

/-- The stage-level fact behind C10: a two-word stage whose first word is
not a write command, matches no blocked prefix, and whose inline flag is
absent, passes the general-readonly stage rules at position 0. -/
theorem genStageCheck_two_word_allows {stage w s flag : List Char}
    (hw : getCmdWords stage = [w, s])
    (hrp : resolvePrefix [w, s] = (w, [w, s]))
    (hwne : w ≠ [])
    (hwc : memW w WRITE_COMMANDS = false)
    (hall : writePrefixList.all (firstWordNe w) = true)
    (hint : inlineFlag w = some flag)
    (hs : s ≠ flag) :
    genStageCheck 0 stage = none := by
  unfold genStageCheck
  rw [hw]
  simp only [hrp, List.tail_cons]
  have hie : w.isEmpty = false := by
    rw [List.isEmpty_eq_false]; exact hwne
  rw [hie]
  simp only [Bool.false_eq_true, if_false]
  rw [hwc]
  simp only [Bool.false_eq_true, if_false]
  rw [firstMatchingPfx_none hall]
  have hdec : decide (0 < 0) = false := rfl
  rw [hdec]
  simp only [Bool.false_and, Bool.false_eq_true, if_false]
  rw [hint]
  have hmem : memW flag [s] = false := by
    rw [memW, if_neg (fun h => hs h.symm)]
    rfl
  simp only [hmem, Bool.false_eq_true, if_false]

/-- A two-word general-readonly command `w s` with plain tokens, `w` not a
write command, no blocked prefix starting with `w`, and the inline flag
absent, is allowed end to end. -/
theorem checkGeneral_two_word_none (w s flag : List Char)
    (hwp : ∀ x ∈ w, plainChar x = true) (hwne : w ≠ [])
    (hsp : ∀ x ∈ s, plainChar x = true) (hsne : s ≠ [])
    (hrp : resolvePrefix [w, s] = (w, [w, s]))
    (hwc : memW w WRITE_COMMANDS = false)
    (hall : writePrefixList.all (firstWordNe w) = true)
    (hint : inlineFlag w = some flag)
    (hs : s ≠ flag) :
    checkGeneralList (w ++ ' ' :: s) = none := by
  set cmd := w ++ ' ' :: s with hcmd
  have hclass : ∀ x ∈ cmd, plainChar x = true ∨ x = ' ' := by
    intro x hx
    rw [hcmd] at hx
    rcases List.mem_append.mp hx with h | h
    · exact Or.inl (hwp x h)
    · rcases List.mem_cons.mp h with rfl | h2
      · exact Or.inr rfl
      · exact Or.inl (hsp x h2)
  have hnc : ∀ (c : Char), plainChar c = false → c ≠ ' ' →
      containsChar c cmd = false := by
    intro c hcp hc1
    rw [containsChar_eq_false]
    intro x hx
    rcases hclass x hx with h | h
    · exact plainChar_ne_of h hcp
    · subst h; exact fun he => hc1 he.symm
  have hsep : ∀ x ∈ cmd, x ≠ ';' ∧ x ≠ '&' ∧ x ≠ '|' := by
    intro x hx
    rcases hclass x hx with h | h
    · exact ⟨plainChar_ne_of h (by decide), plainChar_ne_of h (by decide),
        plainChar_ne_of h (by decide)⟩
    · subst h; exact ⟨by decide, by decide, by decide⟩
  have hpipe : ∀ x ∈ cmd, x ≠ '|' := fun x hx => (hsep x hx).2.2
  obtain ⟨a, w', rfl⟩ : ∃ a w', w = a :: w' := by
    cases w with
    | nil => exact absurd rfl hwne
    | cons a w' => exact ⟨a, w', rfl⟩
  have hhead : cmd.head? = some a := by rw [hcmd]; rfl
  have hlast : cmd.getLast? = s.getLast? := by
    rw [hcmd]
    rw [getLast?_append_right (by simp : (' ' :: s : List Char) ≠ [])]
    have h1 : (' ' :: s : List Char) = [' '] ++ s := rfl
    rw [h1, getLast?_append_right hsne]
  have hstrip : pyStrip cmd = cmd := by
    apply pyStrip_eq_self
    · intro x hx
      rw [hhead] at hx
      obtain rfl : a = x := Option.some.inj hx
      exact isSpace_false_of_plain (hwp a (by simp))
    · intro x hx
      rw [hlast] at hx
      exact isSpace_false_of_plain (hsp x (mem_of_getLast?_eq hx))
  have hcne : cmd ≠ [] := by
    intro h; rw [h] at hhead; cases hhead
  have hsegs : splitSegments cmd = [cmd] :=
    splitSegments_single hsep (hnc '\\' (by decide) (by decide)) hstrip hcne
  have hpipes : splitPipes cmd = [cmd] := splitPipes_single hpipe hstrip hcne
  have hwords : getCmdWords cmd = [a :: w', s] := by
    rw [hcmd]
    unfold getCmdWords splitWs
    rw [splitWsAux_word (a :: w') []
      (fun x hx => isSpace_false_of_plain (hwp x hx)) (Or.inr hwne)]
    rw [splitWsAux_last s []
      (fun x hx => isSpace_false_of_plain (hsp x hx)) (Or.inr hsne)]
    simp only [List.reverse_nil, List.nil_append]
    rw [dropAssignWords]
    have hia : isAssignWord (a :: w') = false := by
      unfold isAssignWord
      rw [containsChar_eq_false.mpr
        (fun x hx => plainChar_ne_of (hwp x hx) (by decide))]
      rfl
    rw [hia]
    simp
  have hstage : genStageCheck 0 cmd = none :=
    genStageCheck_two_word_allows hwords hrp hwne hwc hall hint hs
  have hseg : genSegCheck cmd = none := by
    unfold genSegCheck
    rw [hpipes, genStagesGo, hstage]
    rfl
  unfold checkGeneralList
  rw [checkGeneralF]
  rw [hasRedirect_false (hnc '>' (by decide) (by decide))]
  simp only [Bool.false_eq_true, if_false]
  rw [hasCommandSubstitution_false (hnc '$' (by decide) (by decide))
    (hnc backtickChar (by decide) (by decide))]
  simp only [Bool.false_eq_true, if_false]
  unfold genSegLoop
  rw [hsegs, List.findSome?_cons, hseg]
  rfl

/-- C9 counterexample: with the directory token `list`, the flag value
passes the position-based `stash` check and the command is allowed, so
"for every directory d, `git -C d stash list` is blocked" is false. -/
theorem claim9_counterexample :
    check_git_readonly "git -C list stash list" = none := by decide

/-- C9 (amended): the `stash`/`config` restricted-argument checks inspect
token positions counted from `git`, so a value-consuming global flag
shifts them onto the flag's value: for every plain directory token `d`
other than `list` and `show`, `git -C d stash list` is blocked, although
`git stash list` (and `git -C show stash list`) are allowed. -/
theorem claim9_global_flag_position :
    (∀ d : List Char, plainToken d → d ≠ "list".toList → d ≠ "show".toList →
      (checkGitList ("git -C ".toList ++ d ++ " stash list".toList)).isSome
        = true) ∧
    check_git_readonly "git stash list" = none ∧
    check_git_readonly "git -C show stash list" = none := by
  refine ⟨?_, by decide, by decide⟩
  intro d hd hlist hshow
  obtain ⟨hdne, hdp⟩ := hd
  set cmd := "git -C ".toList ++ d ++ " stash list".toList with hcmd
  have hclass : ∀ x ∈ cmd, plainChar x = true ∨ x = ' ' ∨ x = '-' := by
    intro x hx
    rw [hcmd] at hx
    rcases List.mem_append.mp hx with hx1 | hx2
    · rcases List.mem_append.mp hx1 with hx1a | hx1b
      · exact (by decide : ∀ x ∈ "git -C ".toList,
          plainChar x = true ∨ x = ' ' ∨ x = '-') x hx1a
      · exact Or.inl (hdp x hx1b)
    · exact (by decide : ∀ x ∈ " stash list".toList,
        plainChar x = true ∨ x = ' ' ∨ x = '-') x hx2
  have hnc : ∀ (c : Char), plainChar c = false → c ≠ ' ' → c ≠ '-' →
      containsChar c cmd = false := by
    intro c hcp hc1 hc2
    rw [containsChar_eq_false]
    intro x hx
    rcases hclass x hx with h | h | h
    · exact plainChar_ne_of h hcp
    · subst h; exact fun he => hc1 he.symm
    · subst h; exact fun he => hc2 he.symm
  have hsep : ∀ x ∈ cmd, x ≠ ';' ∧ x ≠ '&' ∧ x ≠ '|' := by
    intro x hx
    rcases hclass x hx with h | h | h
    · exact ⟨plainChar_ne_of h (by decide), plainChar_ne_of h (by decide),
        plainChar_ne_of h (by decide)⟩
    · subst h; exact ⟨by decide, by decide, by decide⟩
    · subst h; exact ⟨by decide, by decide, by decide⟩
  have hpipe : ∀ x ∈ cmd, x ≠ '|' := fun x hx => (hsep x hx).2.2
  have hhead : cmd.head? = some 'g' := by rw [hcmd]; rfl
  have hlast : cmd.getLast? = some 't' := by
    rw [hcmd]
    have h3 : (" stash list".toList : List Char)
        = " stash lis".toList ++ ['t'] := rfl
    rw [h3, ← List.append_assoc]
    rw [getLast?_append_right (by simp : (['t'] : List Char) ≠ [])]
    rfl
  have hstrip : pyStrip cmd = cmd := by
    apply pyStrip_eq_self
    · intro x hx
      rw [hhead] at hx
      obtain rfl : 'g' = x := Option.some.inj hx
      decide
    · intro x hx
      rw [hlast] at hx
      obtain rfl : 't' = x := Option.some.inj hx
      decide
  have hcne : cmd ≠ [] := by
    intro h; rw [h] at hhead; cases hhead
  have hsegs : splitSegments cmd = [cmd] :=
    splitSegments_single hsep (hnc '\\' (by decide) (by decide) (by decide))
      hstrip hcne
  have hpipes : splitPipes cmd = [cmd] := splitPipes_single hpipe hstrip hcne
  have hshape : cmd = "git".toList ++ ' ' :: ("-C".toList ++ ' ' ::
      (d ++ ' ' :: ("stash".toList ++ ' ' :: "list".toList))) := by
    rw [hcmd]; rfl
  have hwords : getCmdWords cmd
      = ["git".toList, "-C".toList, d, "stash".toList, "list".toList] := by
    rw [hshape]
    unfold getCmdWords splitWs
    rw [splitWsAux_word ("git".toList) [] (by decide) (Or.inr (by decide))]
    rw [splitWsAux_word ("-C".toList) [] (by decide) (Or.inr (by decide))]
    rw [splitWsAux_word d []
      (fun x hx => isSpace_false_of_plain (hdp x hx)) (Or.inr hdne)]
    rw [splitWsAux_word ("stash".toList) [] (by decide) (Or.inr (by decide))]
    rw [splitWsAux_last ("list".toList) [] (by decide) (Or.inr (by decide))]
    simp only [List.reverse_nil, List.nil_append]
    rw [dropAssignWords, if_neg (by decide :
      ¬(isAssignWord ("git".toList) = true))]
  apply checkGitList_isSome_of_segLoop
  unfold gitSegLoop
  apply findSome?_isSome_of_mem
    (show cmd ∈ splitSegments cmd by rw [hsegs]; simp)
  unfold gitSegCheck
  apply findSome?_isSome_of_mem
    (show cmd ∈ splitPipes cmd by rw [hpipes]; simp)
  exact gitStageCheck_stash_flagval hwords hlist hshow

/-- Witness for C9's amended theorem: `d = /tmp`. -/
theorem claim9_global_flag_position_witness :
    (checkGitList ("git -C ".toList ++ "/tmp".toList
      ++ " stash list".toList)).isSome = true :=
  claim9_global_flag_position.1 ("/tmp".toList) ⟨by decide, by decide⟩
    (by decide) (by decide)

/-- C10: invoking an interpreter with a plain script-name argument and no
inline-execution flag is allowed in general-readonly mode: `bash s` and
`python3 s` are allowed for every plain token `s ≠ -c`. -/
theorem claim10_interpreter_script_allowed :
    (∀ s : List Char, plainToken s → s ≠ "-c".toList →
      checkGeneralList ("bash ".toList ++ s) = none ∧
      checkGeneralList ("python3 ".toList ++ s) = none) ∧
    check_general_readonly "bash build.sh" = none ∧
    check_general_readonly "python3 run.py" = none := by
  refine ⟨?_, by decide, by decide⟩
  intro s hs hsc
  obtain ⟨hsne, hsp⟩ := hs
  constructor
  · exact checkGeneral_two_word_none ("bash".toList) s ("-c".toList)
      (by decide) (by decide) hsp hsne rfl (by decide) (by decide) rfl hsc
  · exact checkGeneral_two_word_none ("python3".toList) s ("-c".toList)
      (by decide) (by decide) hsp hsne rfl (by decide) (by decide) rfl hsc

/-- Witness for C10: `s = build.sh`. -/
theorem claim10_interpreter_script_allowed_witness :
    checkGeneralList ("bash ".toList ++ "build.sh".toList) = none ∧
    checkGeneralList ("python3 ".toList ++ "build.sh".toList) = none :=
  claim10_interpreter_script_allowed.1 ("build.sh".toList)
    ⟨by decide, by decide⟩ (by decide)

/-! ## The anatomy of a `/dev/null`-removal match (for C1) -/

theorem take_append_exact : ∀ (u v : List Char) (k : Nat),
    (u ++ v).take (u.length + k) = u ++ v.take k := by
  intro u
  induction u with
  | nil => intro v k; simp
  | cons c u' ih =>
    intro v k
    rw [List.cons_append, List.length_cons]
    have h : u'.length + 1 + k = (u'.length + k) + 1 := by omega
    rw [h, List.take_succ_cons, ih, List.cons_append]

theorem take_append_le : ∀ (u v : List Char) (k : Nat), k ≤ u.length →
    (u ++ v).take k = u.take k := by
  intro u
  induction u with
  | nil =>
    intro v k hk
    have : k = 0 := by simpa using hk
    subst this; rfl
  | cons c u' ih =>
    intro v k hk
    cases k with
    | zero => rfl
    | succ k' =>
      rw [List.cons_append, List.take_succ_cons, List.take_succ_cons,
        ih v k' (by simp at hk; omega)]

theorem drop_append_le : ∀ (u v : List Char) (n : Nat), n ≤ u.length →
    (u ++ v).drop n = u.drop n ++ v := by
  intro u
  induction u with
  | nil =>
    intro v n hn
    have : n = 0 := by simpa using hn
    subst this; rfl
  | cons c u' ih =>
    intro v n hn
    cases n with
    | zero => rfl
    | succ n' =>
      rw [List.cons_append, List.drop_succ_cons, List.drop_succ_cons,
        ih v n' (by simp at hn; omega)]

theorem mem_takeWhile_isSpace : ∀ {l : List Char} {x : Char},
    x ∈ l.takeWhile isSpace → isSpace x = true := by
  intro l
  induction l with
  | nil => intro x hx; simp [List.takeWhile] at hx
  | cons c t ih =>
    intro x hx
    rw [List.takeWhile_cons] at hx
    by_cases hc : isSpace c = true
    · rw [if_pos hc] at hx
      rcases List.mem_cons.mp hx with rfl | h2
      · exact hc
      · exact ih h2
    · rw [if_neg hc] at hx; cases hx

theorem devTail_spec {l : List Char} {n : Nat} (h : devTail l = some n) :
    l.take n = l.takeWhile isSpace ++ devnullStr := by
  unfold devTail at h
  by_cases hp : devnullStr.isPrefixOf (l.dropWhile isSpace) = true
  · rw [if_pos hp] at h
    have hn : n = (l.takeWhile isSpace).length + 9 := (Option.some.inj h).symm
    obtain ⟨t, ht⟩ := List.isPrefixOf_iff_prefix.mp hp
    conv_lhs => rw [← List.takeWhile_append_dropWhile (p := isSpace) (l := l)]
    rw [hn, take_append_exact, ← ht]
    have h9 : (9 : Nat) = devnullStr.length + 0 := by decide
    rw [h9, take_append_exact]
    simp
  · rw [if_neg hp] at h; cases h

theorem gtDev_decomp {l : List Char} {n : Nat} (h : gtDev l = some n) :
    ∃ pre, l.take n = pre ++ devnullStr ∧
      ∀ c ∈ pre, c = '>' ∨ isSpace c = true := by
  cases l with
  | nil => cases h
  | cons c t =>
    rw [gtDev] at h
    by_cases hc : c = '>'
    · rw [if_pos hc] at h
      subst hc
      by_cases hh : t.head? = some '>'
      · rw [if_pos hh] at h
        obtain ⟨c2, t', rfl⟩ : ∃ c2 t', t = c2 :: t' := by
          cases t with
          | nil => cases hh
          | cons c2 t' => exact ⟨c2, t', rfl⟩
        have hc2 : c2 = '>' := by
          rw [List.head?_cons] at hh
          exact Option.some.inj hh
        subst hc2
        rw [List.tail_cons] at h
        cases hdt : devTail t' with
        | some m =>
          rw [hdt] at h
          obtain rfl : m + 2 = n := Option.some.inj h
          refine ⟨'>' :: '>' :: t'.takeWhile isSpace, ?_, ?_⟩
          · have h2 : m + 2 = (m + 1) + 1 := by omega
            rw [h2, List.take_succ_cons, List.take_succ_cons,
              devTail_spec hdt]
            rfl
          · intro x hx
            rcases List.mem_cons.mp hx with rfl | hx2
            · exact Or.inl rfl
            rcases List.mem_cons.mp hx2 with rfl | hx3
            · exact Or.inl rfl
            · exact Or.inr (mem_takeWhile_isSpace hx3)
        | none =>
          rw [hdt] at h
          cases hdt2 : devTail ('>' :: t') with
          | none => rw [hdt2] at h; exact Option.noConfusion h
          | some m =>
            rw [hdt2] at h
            obtain rfl : m + 1 = n := Option.some.inj h
            refine ⟨'>' :: ('>' :: t').takeWhile isSpace, ?_, ?_⟩
            · rw [List.take_succ_cons, devTail_spec hdt2]
              rfl
            · intro x hx
              rcases List.mem_cons.mp hx with rfl | hx2
              · exact Or.inl rfl
              · exact Or.inr (mem_takeWhile_isSpace hx2)
      · rw [if_neg hh] at h
        cases hdt2 : devTail t with
        | none => rw [hdt2] at h; exact Option.noConfusion h
        | some m =>
          rw [hdt2] at h
          obtain rfl : m + 1 = n := Option.some.inj h
          refine ⟨'>' :: t.takeWhile isSpace, ?_, ?_⟩
          · rw [List.take_succ_cons, devTail_spec hdt2]
            rfl
          · intro x hx
            rcases List.mem_cons.mp hx with rfl | hx2
            · exact Or.inl rfl
            · exact Or.inr (mem_takeWhile_isSpace hx2)
    · rw [if_neg hc] at h; cases h

theorem devNullLen_decomp {l : List Char} {n : Nat}
    (h : devNullLen l = some n) :
    ∃ pre, l.take n = pre ++ devnullStr ∧
      ∀ c ∈ pre, c = '1' ∨ c = '2' ∨ c = '>' ∨ isSpace c = true := by
  cases l with
  | nil => cases h
  | cons c rest =>
    rw [devNullLen] at h
    by_cases hc : (c = '1' || c = '2') = true
    · rw [if_pos hc] at h
      cases hgd : gtDev rest with
      | some m =>
        rw [hgd] at h
        obtain rfl : m + 1 = n := Option.some.inj h
        obtain ⟨pre, hp, hpc⟩ := gtDev_decomp hgd
        refine ⟨c :: pre, ?_, ?_⟩
        · rw [List.take_succ_cons, hp]
          rfl
        · intro x hx
          rcases List.mem_cons.mp hx with rfl | hx2
          · rcases Bool.or_eq_true_iff.mp hc with h1 | h1
            · exact Or.inl (decide_eq_true_eq.mp h1)
            · exact Or.inr (Or.inl (decide_eq_true_eq.mp h1))
          · rcases hpc x hx2 with h1 | h1
            · exact Or.inr (Or.inr (Or.inl h1))
            · exact Or.inr (Or.inr (Or.inr h1))
      | none =>
        rw [hgd] at h
        have h2 : gtDev (c :: rest) = some n := h
        obtain ⟨pre, hp, hpc⟩ := gtDev_decomp h2
        refine ⟨pre, hp, fun x hx => ?_⟩
        rcases hpc x hx with h1 | h1
        · exact Or.inr (Or.inr (Or.inl h1))
        · exact Or.inr (Or.inr (Or.inr h1))
    · rw [if_neg hc] at h
      obtain ⟨pre, hp, hpc⟩ := gtDev_decomp h
      refine ⟨pre, hp, fun x hx => ?_⟩
      rcases hpc x hx with h1 | h1
      · exact Or.inr (Or.inr (Or.inl h1))
      · exact Or.inr (Or.inr (Or.inr h1))

theorem devTail_sp_slash_t (b : List Char) :
    devTail (' ' :: '/' :: 't' :: b) = none := by
  unfold devTail
  have h1 : (' ' :: '/' :: 't' :: b).dropWhile isSpace = '/' :: 't' :: b := by
    rw [List.dropWhile_cons, show isSpace ' ' = true from rfl, if_pos rfl,
      List.dropWhile_cons, show isSpace '/' = false from rfl]
    simp
  rw [h1, show devnullStr.isPrefixOf ('/' :: 't' :: b) = false from rfl]
  simp

theorem devNullLen_t (b : List Char) : devNullLen ('t' :: b) = none := by
  rw [devNullLen, if_neg (by decide : ¬(('t' = '1' || 't' = '2') = true))]
  rw [gtDev, if_neg (by decide : ¬('t' = '>'))]

theorem devNullLen_slash_t (b : List Char) :
    devNullLen ('/' :: 't' :: b) = none := by
  rw [devNullLen, if_neg (by decide : ¬(('/' = '1' || '/' = '2') = true))]
  rw [gtDev, if_neg (by decide : ¬('/' = '>'))]

theorem devNullLen_sp_slash_t (b : List Char) :
    devNullLen (' ' :: '/' :: 't' :: b) = none := by
  rw [devNullLen, if_neg (by decide : ¬((' ' = '1' || ' ' = '2') = true))]
  rw [gtDev, if_neg (by decide : ¬(' ' = '>'))]

theorem devNullLen_gt_sp (b : List Char) :
    devNullLen ('>' :: ' ' :: '/' :: 't' :: b) = none := by
  rw [devNullLen, if_neg (by decide : ¬(('>' = '1' || '>' = '2') = true))]
  rw [gtDev, if_pos (rfl : '>' = '>')]
  rw [if_neg (by simp : ¬((' ' :: '/' :: 't' :: b).head? = some '>'))]
  rw [devTail_sp_slash_t]
  rfl

theorem devNullLen_pat5 (b : List Char) :
    devNullLen (' ' :: '>' :: ' ' :: '/' :: 't' :: b) = none := by
  rw [devNullLen, if_neg (by decide : ¬((' ' = '1' || ' ' = '2') = true))]
  rw [gtDev, if_neg (by decide : ¬(' ' = '>'))]

theorem cleanF_t (f : Nat) (b : List Char) :
    ∃ y, cleanDevNullF f ('t' :: b) = 't' :: y := by
  cases f with
  | zero => exact ⟨b, rfl⟩
  | succ f =>
    refine ⟨cleanDevNullF f b, ?_⟩
    rw [cleanDevNullF, devNullLen_t]

theorem cleanF_slash (f : Nat) (b : List Char) :
    ∃ y, cleanDevNullF f ('/' :: 't' :: b) = '/' :: 't' :: y := by
  cases f with
  | zero => exact ⟨b, rfl⟩
  | succ f =>
    obtain ⟨y, hy⟩ := cleanF_t f b
    refine ⟨y, ?_⟩
    rw [cleanDevNullF, devNullLen_slash_t, hy]

theorem cleanF_sp_slash (f : Nat) (b : List Char) :
    ∃ y, cleanDevNullF f (' ' :: '/' :: 't' :: b) = ' ' :: '/' :: 't' :: y := by
  cases f with
  | zero => exact ⟨b, rfl⟩
  | succ f =>
    obtain ⟨y, hy⟩ := cleanF_slash f b
    refine ⟨y, ?_⟩
    rw [cleanDevNullF, devNullLen_sp_slash_t, hy]

theorem cleanF_gt (f : Nat) (b : List Char) :
    ∃ y, cleanDevNullF f ('>' :: ' ' :: '/' :: 't' :: b)
      = '>' :: ' ' :: '/' :: 't' :: y := by
  cases f with
  | zero => exact ⟨b, rfl⟩
  | succ f =>
    obtain ⟨y, hy⟩ := cleanF_sp_slash f b
    refine ⟨y, ?_⟩
    rw [cleanDevNullF, devNullLen_gt_sp, hy]

theorem cleanF_pat5 (f : Nat) (b : List Char) :
    ∃ y, cleanDevNullF f (' ' :: '>' :: ' ' :: '/' :: 't' :: b)
      = ' ' :: '>' :: ' ' :: '/' :: 't' :: y := by
  cases f with
  | zero => exact ⟨b, rfl⟩
  | succ f =>
    obtain ⟨y, hy⟩ := cleanF_gt f b
    refine ⟨y, ?_⟩
    rw [cleanDevNullF, devNullLen_pat5, hy]

theorem devNullLen_no_cross {r b : List Char} {n : Nat}
    (h : devNullLen (r ++ pat5 ++ b) = some n) : n ≤ r.length := by
  by_contra hgt
  push_neg at hgt
  obtain ⟨pre, hp, hpc⟩ := devNullLen_decomp h
  have hsplit : (r ++ pat5 ++ b).take n
      = r ++ (pat5 ++ b).take (n - r.length) := by
    have he : n = r.length + (n - r.length) := by omega
    conv_lhs => rw [he]
    rw [List.append_assoc, take_append_exact]
  by_cases hk5 : 5 ≤ n - r.length
  · have htt : 't' ∈ (pat5 ++ b).take (n - r.length) := by
      have h5 : (pat5 ++ b).take (n - r.length)
          = pat5 ++ b.take (n - r.length - 5) := by
        have he2 : n - r.length = pat5.length + (n - r.length - 5) := by
          simp only [pat5, List.length_cons, List.length_nil]
          omega
        conv_lhs => rw [he2]
        rw [take_append_exact]
      rw [h5]
      exact List.mem_append_left _ (by decide)
    have htm : 't' ∈ pre ++ devnullStr := by
      rw [← hp, hsplit]
      exact List.mem_append_right r htt
    rcases List.mem_append.mp htm with h1 | h1
    · rcases hpc 't' h1 with h2 | h2 | h2 | h2
      · exact absurd h2 (by decide)
      · exact absurd h2 (by decide)
      · exact absurd h2 (by decide)
      · exact absurd h2 (by decide)
    · exact absurd h1 (by decide)
  · have heq : pre ++ devnullStr = r ++ pat5.take (n - r.length) := by
      rw [← hp, hsplit, take_append_le _ _ _ (by
        simp only [pat5, List.length_cons, List.length_nil]
        omega)]
    have hg : (pre ++ devnullStr).getLast? = some 'l' := by
      rw [getLast?_append_right (by decide : devnullStr ≠ [])]
      rfl
    rw [heq] at hg
    have hcases : n - r.length = 1 ∨ n - r.length = 2 ∨ n - r.length = 3 ∨
        n - r.length = 4 := by omega
    rcases hcases with he | he | he | he
    · rw [he, getLast?_append_right
        (show pat5.take 1 ≠ [] by decide)] at hg
      exact absurd hg (by decide)
    · rw [he, getLast?_append_right
        (show pat5.take 2 ≠ [] by decide)] at hg
      exact absurd hg (by decide)
    · rw [he, getLast?_append_right
        (show pat5.take 3 ≠ [] by decide)] at hg
      exact absurd hg (by decide)
    · rw [he, getLast?_append_right
        (show pat5.take 4 ≠ [] by decide)] at hg
      exact absurd hg (by decide)

theorem cleanF_preserves : ∀ (f : Nat) (a b : List Char),
    ∃ x y, cleanDevNullF f (a ++ pat5 ++ b) = x ++ pat5 ++ y := by
  intro f
  induction f with
  | zero => intro a b; exact ⟨a, b, rfl⟩
  | succ f ih =>
    intro a b
    cases a with
    | nil =>
      obtain ⟨y, hy⟩ := cleanF_pat5 (f + 1) b
      exact ⟨[], y, hy⟩
    | cons c a' =>
      have hsh : (c :: a') ++ pat5 ++ b = c :: (a' ++ pat5 ++ b) := by simp
      cases hdn : devNullLen (c :: (a' ++ pat5 ++ b)) with
      | none =>
        rw [hsh, cleanDevNullF, hdn]
        obtain ⟨x, y, hxy⟩ := ih a' b
        refine ⟨c :: x, y, ?_⟩
        show c :: cleanDevNullF f (a' ++ pat5 ++ b) = (c :: x) ++ pat5 ++ y
        rw [hxy]
        simp
      | some n =>
        have hdn' : devNullLen ((c :: a') ++ pat5 ++ b) = some n := by
          rw [hsh]; exact hdn
        have hle := devNullLen_no_cross hdn'
        rw [hsh, cleanDevNullF, hdn]
        have hdrop : (c :: (a' ++ pat5 ++ b)).drop n
            = ((c :: a').drop n) ++ pat5 ++ b := by
          rw [← hsh, List.append_assoc, drop_append_le _ _ _ hle,
            ← List.append_assoc]
        obtain ⟨x, y, hxy⟩ := ih ((c :: a').drop n) b
        refine ⟨x, y, ?_⟩
        show cleanDevNullF f ((c :: (a' ++ pat5 ++ b)).drop n)
          = x ++ pat5 ++ y
        rw [hdrop]
        exact hxy

theorem gtTail_sp_slash (y : List Char) :
    gtTail (' ' :: '/' :: 't' :: y) = true := by
  unfold gtTail
  have h1 : (' ' :: '/' :: 't' :: y).dropWhile isSpace = '/' :: 't' :: y := by
    rw [List.dropWhile_cons, show isSpace ' ' = true from rfl, if_pos rfl,
      List.dropWhile_cons, show isSpace '/' = false from rfl]
    simp
  rw [h1]
  rfl

theorem redirCoreB_pat4 (y : List Char) :
    redirCoreB ('>' :: ' ' :: '/' :: 't' :: y) = true := by
  rw [redirCoreB, if_neg (by decide : ¬(('>' = '1' || '>' = '2') = true))]
  rw [gtRun, if_pos (rfl : '>' = '>')]
  rw [if_neg (by simp : ¬((' ' :: '/' :: 't' :: y).head? = some '>'))]
  exact gtTail_sp_slash y

theorem searchRedirAux_pat5 : ∀ (x y : List Char),
    searchRedirAux (x ++ pat5 ++ y) = true := by
  intro x
  induction x with
  | nil =>
    intro y
    show searchRedirAux (' ' :: '>' :: ' ' :: '/' :: 't' :: y) = true
    rw [searchRedirAux.eq_def]
    dsimp only
    rw [redirCoreB_pat4 y, show isSpace ' ' = true from rfl]
    rfl
  | cons c x' ih =>
    intro y
    show ((isSpace c || c = ')') && redirCoreB (x' ++ pat5 ++ y)
        || searchRedirAux (x' ++ pat5 ++ y)) = true
    rw [ih]
    simp

theorem hasRedirect_pat5 (u v : List Char) :
    hasRedirect (u ++ pat5 ++ v) = true := by
  unfold hasRedirect cleanDevNull
  dsimp only
  obtain ⟨x, y, hxy⟩ := cleanF_preserves (u ++ pat5 ++ v).length u v
  rw [hxy, searchRedirAux_pat5 x y]
  simp

/-- C1 counterexample: `echo hi>file` contains an output redirection token
whose target is not `/dev/null`, yet both modes allow it (the detector
additionally requires the token to be preceded by start-of-string,
whitespace, or `)`). -/
theorem claim1_counterexample :
    specRedirectTokenB ("echo hi>file".toList) = true ∧
    check_general_readonly "echo hi>file" = none ∧
    check_git_readonly "echo hi>file" = none :=
  ⟨by decide, by decide, by decide⟩

/-- C1 (amended): whenever the raw-string redirect detector fires — a `>`
or `>>` token, optionally fd-prefixed, preceded by start-of-string,
whitespace, or `)`, followed after optional whitespace by a character
other than whitespace, `&`, `|`, `;`, and not a `/dev/null` redirection —
the command is blocked in both modes; in particular every command
containing the substring `echo hi > /tmp/x` is blocked in both modes,
while `echo hi > /dev/null` is allowed in both. -/
theorem claim1_redirect_blocked :
    (∀ c : List Char, hasRedirect c = true →
      (checkGeneralList c).isSome = true ∧ (checkGitList c).isSome = true) ∧
    (∀ u v : List Char,
      (checkGeneralList (u ++ "echo hi > /tmp/x".toList ++ v)).isSome = true ∧
      (checkGitList (u ++ "echo hi > /tmp/x".toList ++ v)).isSome = true) ∧
    check_general_readonly "echo hi > /dev/null" = none ∧
    check_git_readonly "echo hi > /dev/null" = none := by
  have hpart1 : ∀ c : List Char, hasRedirect c = true →
      (checkGeneralList c).isSome = true ∧ (checkGitList c).isSome = true := by
    intro c h
    constructor
    · unfold checkGeneralList
      rw [checkGeneralF, if_pos h]
      rfl
    · unfold checkGitList
      rw [checkGitF, if_pos h]
      rfl
  refine ⟨hpart1, ?_, by decide, by decide⟩
  intro u v
  have hsh : u ++ "echo hi > /tmp/x".toList ++ v
      = (u ++ "echo hi".toList) ++ pat5 ++ ("mp/x".toList ++ v) := by
    have h16 : ("echo hi > /tmp/x".toList : List Char)
        = "echo hi".toList ++ (pat5 ++ "mp/x".toList) := rfl
    rw [h16]
    simp [List.append_assoc]
  rw [hsh]
  exact hpart1 _ (hasRedirect_pat5 _ _)

/-- Witness for C1's amended theorem: the detector-level part applied to
`cat a > b`. -/
theorem claim1_redirect_blocked_witness :
    (checkGeneralList ("cat a > b".toList)).isSome = true ∧
    (checkGitList ("cat a > b".toList)).isSome = true :=
  claim1_redirect_blocked.1 ("cat a > b".toList) (by decide)
